import Mathlib

/-!
Verification of the JSSP scheduling engine of this repository.

The definitions below are a shallow embedding of
`backend/app/services/jssp_solver.py` (function `solve_jssp`), of the
validation helper `validate_operations` and of the pipeline guard of
`_tool_solve_schedule` in `backend/app/api/scheduling.py`.

The CP-SAT model built by `solve_jssp` is embedded as follows.  The decision
variables of the model are, for every job `j`, every operation position `oi`
in `j.operation_list` and every machine-instance index `c` of the operation's
machine group, one optional timing unit `(start, end, presence)`; an
assignment gives each unit concrete values.  All remaining variables of the
Python model (`pred_end_time`, `current_start_time`, `end_<job>`,
`weighted_end_<job>`, `makespan`, `total_weighted_completion`,
`combined_objective`) are pinned by `AddMaxEquality` / `AddMinEquality` /
`Add(== )` equality constraints, so they are embedded as derived functions of
the unit values; the only one of their declared domains that is not implied
by the unit domains is the domain of `combined_objective`, which is kept as
an explicit constraint (`ObjDomainOk`).  The pair of constraints
`AddMinEquality(current_start, starts); AddMaxEquality(pred_end, ends);
current_start >= pred_end` is equivalent to requiring every candidate start
of the operation to be at least every candidate end of the predecessor, and
is embedded in that pairwise form.  `AddNoOverlap` over optional intervals is
embedded as pairwise disjointness of the present units attached to the same
machine-instance label.
-/

namespace JSSP

/-- Mirror of the `Operation` record as consumed by `solve_jssp`
(`id`, `machine_group_id`, `processing_time`, `predecessors`). -/
structure Operation where
  id : String
  machine_group_id : String
  processing_time : Nat
  predecessors : List String
deriving DecidableEq

/-- Mirror of the `Job` record as consumed by `solve_jssp`
(`id`, `name`, `priority`, `operation_list`). -/
structure Job where
  id : String
  name : String
  priority : Nat
  operation_list : List Operation
deriving DecidableEq

/-- Mirror of the `MachineGroup` record (`id`, `name`, `quantity`). -/
structure MachineGroup where
  id : String
  name : String
  quantity : Nat
deriving DecidableEq

/-- Output record `ScheduledOperation` of `solve_jssp`. -/
structure ScheduledOperation where
  job_id : String
  operation_id : String
  machine_instance_id : String
  start_time : Nat
  end_time : Nat
deriving DecidableEq

/-- Output record `Schedule` of `solve_jssp`.  The Python
`machine_utilization` dict is embedded as an association list, and the
float KPI values as rationals. -/
structure Schedule where
  makespan : Nat
  scheduled_operations : List ScheduledOperation
  machine_utilization : List (String × ℚ)
  average_flow_time : ℚ
deriving DecidableEq

/-- One optional timing unit of the CP-SAT model:
`start_var`, `end_var` and `presence_var` of
`NewOptionalIntervalVar(start, processing_time, end, presence)`. -/
structure UnitAssign where
  start : Nat
  end_ : Nat
  presence : Bool
deriving DecidableEq

/-- A concrete valuation of all unit variables, indexed by
(job position, operation position, machine-instance index). -/
def Assignment : Type := Nat → Nat → Nat → UnitAssign

/-- Placeholder job used for out-of-range list access. -/
def defaultJob : Job := ⟨"", "", 0, []⟩

/-- Placeholder operation used for out-of-range list access. -/
def defaultOp : Operation := ⟨"", "", 0, []⟩

/-- Job at position `ji` of the job list. -/
def jobAt (jobs : List Job) (ji : Nat) : Job := jobs.getD ji defaultJob

/-- Operation at position `oi` of a job's `operation_list`. -/
def opAt (j : Job) (oi : Nat) : Operation := j.operation_list.getD oi defaultOp

/-- `machine_group_map[gid]`: the Python dict comprehension
`{mg.id: mg for mg in machine_groups}` keeps the last group with a given id. -/
def findGroup (groups : List MachineGroup) (gid : String) : Option MachineGroup :=
  groups.reverse.find? (fun g => g.id == gid)

/-- Number of machine instances available to an operation: the `quantity` of
the group looked up via `machine_group_map[op.machine_group_id]`
(0 when the lookup fails, a case excluded separately by `solveJsspPath`). -/
def opQty (groups : List MachineGroup) (op : Operation) : Nat :=
  ((findGroup groups op.machine_group_id).map (fun g => g.quantity)).getD 0

/-- `horizon = sum(op.processing_time for job in jobs for op in job.operation_list)`. -/
def horizon (jobs : List Job) : Nat :=
  (jobs.map (fun j => (j.operation_list.map (fun op => op.processing_time)).sum)).sum

/-- `f"{group.id}_{i}"`: the machine-instance label. -/
def instanceLabel (gid : String) (c : Nat) : String := gid ++ "_" ++ toString c

/-- `all_machine_instances`: every instance label of every group. -/
def allMachineInstances (groups : List MachineGroup) : List String :=
  groups.flatMap (fun g => (List.range g.quantity).map (fun i => instanceLabel g.id i))

/-- Whether some operation references a machine group id that is absent from
`machine_group_map` (the `return None` at the top of the creation loop). -/
def anyUnknownGroup (jobs : List Job) (groups : List MachineGroup) : Bool :=
  jobs.any (fun j => j.operation_list.any
    (fun op => (findGroup groups op.machine_group_id).isNone))

/-- The control path taken by `solve_jssp` before the engine is invoked:
`noMachines` is the early `return None` when `all_machine_instances` is
empty, `unknownGroup` the `return None` inside the variable-creation loop,
and `modelBuilt` means the CP-SAT model is fully constructed and solved. -/
inductive SolvePath where
  | noMachines : SolvePath
  | unknownGroup : SolvePath
  | modelBuilt : SolvePath
deriving DecidableEq

/-- Which of the three control paths `solve_jssp` takes for a given input. -/
def solveJsspPath (jobs : List Job) (groups : List MachineGroup) : SolvePath :=
  if allMachineInstances groups = [] then SolvePath.noMachines
  else if anyUnknownGroup jobs groups then SolvePath.unknownGroup
  else SolvePath.modelBuilt

/-- Position of `task_to_op_map[(job.id, oid)]`: the Python dict is written
once per operation in list order, so a repeated operation id keeps the units
of the last operation with that id. -/
def lookupPos (j : Job) (oid : String) : Nat :=
  match (List.range j.operation_list.length).reverse.find?
      (fun k => (opAt j k).id == oid) with
  | some k => k
  | none => 0

/-- `max` of a list of naturals, 0 for the empty list (this matches both
branches of the Python makespan setup: `AddMaxEquality` over a non-empty
list, and the explicit `makespan == 0` when no job has operations). -/
def maxList (l : List Nat) : Nat := l.foldr max 0

/-- Position of the units of `task_to_op_map[(job.id, job.operation_list[-1].id)]`:
the dict entry keyed by the id of the job's last listed operation. -/
def lastOpPos (j : Job) : Nat := lookupPos j (opAt j (j.operation_list.length - 1)).id

/-- The value of the job-end variable `end_<job.id>`:
`AddMaxEquality(job_end_time, [interval.EndExpr() for interval, _ in
task_to_op_map[(job.id, job.operation_list[-1].id)]])`. -/
def jobEndVal (groups : List MachineGroup) (A : Assignment) (ji : Nat) (j : Job) : Nat :=
  maxList ((List.range (opQty groups (opAt j (lastOpPos j)))).map
    (fun c => (A ji (lastOpPos j) c).end_))

/-- Positions of the jobs with a non-empty `operation_list` (the others are
skipped by the `if not job.operation_list: continue` of the objective loop). -/
def jobsWithOps (jobs : List Job) : List Nat :=
  (List.range jobs.length).filter (fun ji => !(jobAt jobs ji).operation_list.isEmpty)

/-- The value of the `makespan` variable: maximum of the job-end variables,
0 when no job has operations. -/
def makespanVal (jobs : List Job) (groups : List MachineGroup) (A : Assignment) : Nat :=
  maxList ((jobsWithOps jobs).map (fun ji => jobEndVal groups A ji (jobAt jobs ji)))

/-- The value of `total_weighted_completion`: the sum over jobs with
operations of `job_end_time * job.priority`. -/
def primaryVal (jobs : List Job) (groups : List MachineGroup) (A : Assignment) : Nat :=
  ((jobsWithOps jobs).map
    (fun ji => (jobAt jobs ji).priority * jobEndVal groups A ji (jobAt jobs ji))).sum

/-- The value of `combined_objective`:
`PRIMARY_WEIGHT * total_weighted_completion + SECONDARY_WEIGHT * makespan`
with `PRIMARY_WEIGHT = horizon + 1` and `SECONDARY_WEIGHT = 1`. -/
def objVal (jobs : List Job) (groups : List MachineGroup) (A : Assignment) : Nat :=
  (horizon jobs + 1) * primaryVal jobs groups A + makespanVal jobs groups A

/-- `max_priority = sum(j.priority for j in jobs) if jobs else 1`. -/
def maxPriority (jobs : List Job) : Nat :=
  if jobs.isEmpty then 1 else (jobs.map (fun j => j.priority)).sum

/-- Every unit start/end variable lies in its declared domain `[0, horizon]`. -/
def DomainsOk (jobs : List Job) (groups : List MachineGroup) (A : Assignment) : Prop :=
  ∀ ji < jobs.length, ∀ oi < (jobAt jobs ji).operation_list.length,
    ∀ c < opQty groups (opAt (jobAt jobs ji) oi),
      (A ji oi c).start ≤ horizon jobs ∧ (A ji oi c).end_ ≤ horizon jobs

/-- A present optional interval satisfies `end = start + processing_time`
(the relation `NewOptionalIntervalVar` enforces when its presence literal is
true). -/
def PresentIntervalsOk (jobs : List Job) (groups : List MachineGroup) (A : Assignment) : Prop :=
  ∀ ji < jobs.length, ∀ oi < (jobAt jobs ji).operation_list.length,
    ∀ c < opQty groups (opAt (jobAt jobs ji) oi),
      (A ji oi c).presence = true →
        (A ji oi c).end_ =
          (A ji oi c).start + (opAt (jobAt jobs ji) oi).processing_time

/-- `model.AddExactlyOne(presence_vars)`: exactly one presence flag per
operation is true (over the empty candidate list of a zero-quantity group
this is unsatisfiable). -/
def ExactlyOneOk (jobs : List Job) (groups : List MachineGroup) (A : Assignment) : Prop :=
  ∀ ji < jobs.length, ∀ oi < (jobAt jobs ji).operation_list.length,
    ((List.range (opQty groups (opAt (jobAt jobs ji) oi))).countP
      (fun c => (A ji oi c).presence)) = 1

/-- The precedence constraints: for every operation and every predecessor id
listed in the same job (`if pred_op_id in op_map`), the constraint
`min(starts of task_to_op_map[(job.id, op.id)]) ≥
max(ends of task_to_op_map[(job.id, pred_op_id)])`, stated in the equivalent
pairwise form. -/
def PrecedenceOk (jobs : List Job) (groups : List MachineGroup) (A : Assignment) : Prop :=
  ∀ ji < jobs.length, ∀ oi < (jobAt jobs ji).operation_list.length,
    ∀ pid ∈ (opAt (jobAt jobs ji) oi).predecessors,
      pid ∈ (jobAt jobs ji).operation_list.map (fun op => op.id) →
        ∀ c < opQty groups (opAt (jobAt jobs ji)
            (lookupPos (jobAt jobs ji) (opAt (jobAt jobs ji) oi).id)),
          ∀ cp < opQty groups (opAt (jobAt jobs ji) (lookupPos (jobAt jobs ji) pid)),
            (A ji (lookupPos (jobAt jobs ji) pid) cp).end_ ≤
              (A ji (lookupPos (jobAt jobs ji) (opAt (jobAt jobs ji) oi).id) c).start

/-- All (job position, operation position, machine-instance index) triples
indexing a timing unit of the model. -/
def unitPositions (jobs : List Job) (groups : List MachineGroup) : List (Nat × Nat × Nat) :=
  (List.range jobs.length).flatMap (fun ji =>
    (List.range (jobAt jobs ji).operation_list.length).flatMap (fun oi =>
      (List.range (opQty groups (opAt (jobAt jobs ji) oi))).map (fun c => (ji, oi, c))))

/-- The machine-instance label a unit position is attached to
(`intervals_per_machine_instance` key). -/
def unitLabel (jobs : List Job) (p : Nat × Nat × Nat) : String :=
  instanceLabel (opAt (jobAt jobs p.1) p.2.1).machine_group_id p.2.2

/-- The unit variables at a unit position. -/
def unitAt (A : Assignment) (p : Nat × Nat × Nat) : UnitAssign := A p.1 p.2.1 p.2.2

/-- `model.AddNoOverlap(intervals_per_machine_instance[instance_id])`:
any two distinct present units attached to the same machine-instance label
occupy disjoint time intervals. -/
def NoOverlapOk (jobs : List Job) (groups : List MachineGroup) (A : Assignment) : Prop :=
  ∀ p1 ∈ unitPositions jobs groups, ∀ p2 ∈ unitPositions jobs groups,
    p1 ≠ p2 → unitLabel jobs p1 = unitLabel jobs p2 →
      (unitAt A p1).presence = true → (unitAt A p2).presence = true →
        (unitAt A p1).end_ ≤ (unitAt A p2).start ∨
          (unitAt A p2).end_ ≤ (unitAt A p1).start

/-- The declared domain of the `combined_objective` variable,
`NewIntVar(0, horizon^3 * max(1, max_priority) + horizon, ...)`.  Unlike the
other derived-variable domains this one is not implied by the unit domains
(for `horizon = 1` it genuinely cuts off assignments), so it is kept as an
explicit constraint. -/
def ObjDomainOk (jobs : List Job) (groups : List MachineGroup) (A : Assignment) : Prop :=
  objVal jobs groups A ≤
    horizon jobs * horizon jobs * horizon jobs * max 1 (maxPriority jobs) + horizon jobs

/-- All constraints of the CP-SAT model except the `combined_objective`
domain. -/
def FeasibleCore (jobs : List Job) (groups : List MachineGroup) (A : Assignment) : Prop :=
  DomainsOk jobs groups A ∧ PresentIntervalsOk jobs groups A ∧
    ExactlyOneOk jobs groups A ∧ PrecedenceOk jobs groups A ∧
      NoOverlapOk jobs groups A

/-- A feasible solution of the CP-SAT model built by `solve_jssp`. -/
def Feasible (jobs : List Job) (groups : List MachineGroup) (A : Assignment) : Prop :=
  FeasibleCore jobs groups A ∧ ObjDomainOk jobs groups A

instance (jobs : List Job) (groups : List MachineGroup) (A : Assignment) :
    Decidable (DomainsOk jobs groups A) := by
  unfold DomainsOk; exact inferInstance

instance (jobs : List Job) (groups : List MachineGroup) (A : Assignment) :
    Decidable (PresentIntervalsOk jobs groups A) := by
  unfold PresentIntervalsOk; exact inferInstance

instance (jobs : List Job) (groups : List MachineGroup) (A : Assignment) :
    Decidable (ExactlyOneOk jobs groups A) := by
  unfold ExactlyOneOk; exact inferInstance

instance (jobs : List Job) (groups : List MachineGroup) (A : Assignment) :
    Decidable (PrecedenceOk jobs groups A) := by
  unfold PrecedenceOk; exact inferInstance

instance (jobs : List Job) (groups : List MachineGroup) (A : Assignment) :
    Decidable (NoOverlapOk jobs groups A) := by
  unfold NoOverlapOk; exact inferInstance

instance (jobs : List Job) (groups : List MachineGroup) (A : Assignment) :
    Decidable (ObjDomainOk jobs groups A) := by
  unfold ObjDomainOk; exact inferInstance

instance (jobs : List Job) (groups : List MachineGroup) (A : Assignment) :
    Decidable (FeasibleCore jobs groups A) := by
  unfold FeasibleCore; exact inferInstance

instance (jobs : List Job) (groups : List MachineGroup) (A : Assignment) :
    Decidable (Feasible jobs groups A) := by
  unfold Feasible; exact inferInstance

/-- A feasible solution that minimizes the combined objective
(`model.Minimize(combined_objective_var)`); this is what a solve with
status `OPTIMAL` returns. -/
def OptimalSolution (jobs : List Job) (groups : List MachineGroup) (A : Assignment) : Prop :=
  Feasible jobs groups A ∧
    ∀ B, Feasible jobs groups B → objVal jobs groups A ≤ objVal jobs groups B

/-- Decoding of one operation in the result loop: look up
`task_to_op_map[(job.id, op.id)]`, scan its units with `enumerate` and emit
a `ScheduledOperation` for the first unit whose presence variable is true
(the loop `break`s after it), with
`instance_id = f"{op.machine_group_id}_{i}"`. -/
def decodeOp (groups : List MachineGroup) (A : Assignment) (ji : Nat) (j : Job)
    (oi : Nat) : Option ScheduledOperation :=
  match (List.range (opQty groups (opAt j (lookupPos j (opAt j oi).id)))).find?
      (fun c => (A ji (lookupPos j (opAt j oi).id) c).presence) with
  | some c =>
      some ⟨j.id, (opAt j oi).id, instanceLabel (opAt j oi).machine_group_id c,
        (A ji (lookupPos j (opAt j oi).id) c).start,
        (A ji (lookupPos j (opAt j oi).id) c).end_⟩
  | none => none

/-- Decoded scheduled operations of one job, in operation-list order. -/
def decodeOpsJob (groups : List MachineGroup) (A : Assignment) (ji : Nat)
    (j : Job) : List ScheduledOperation :=
  (List.range j.operation_list.length).flatMap
    (fun oi => (decodeOp groups A ji j oi).toList)

/-- `scheduled_ops`: decoded operations of all jobs, in input order. -/
def decodeOps (jobs : List Job) (groups : List MachineGroup) (A : Assignment) :
    List ScheduledOperation :=
  (List.range jobs.length).flatMap
    (fun ji => decodeOpsJob groups A ji (jobAt jobs ji))

/-- `machine_busy_time[label]`: sum of `end_time - start_time` over the
scheduled operations assigned to the label. -/
def busyOf (ops : List ScheduledOperation) (label : String) : Nat :=
  ((ops.filter (fun s => s.machine_instance_id == label)).map
    (fun s => s.end_time - s.start_time)).sum

/-- The distinct machine-instance labels occurring in the scheduled
operations (the key set of the Python `machine_busy_time` dict; the claims
below only depend on the key set, not on dict order). -/
def labelsOf (ops : List ScheduledOperation) : List String :=
  (ops.map (fun s => s.machine_instance_id)).dedup

/-- `machine_utilization`: for every busy label,
`busy_time / final_makespan` if the makespan is positive, else 0. -/
def utilOf (ops : List ScheduledOperation) (mk : Nat) : List (String × ℚ) :=
  (labelsOf ops).map
    (fun label => (label, if 0 < mk then (busyOf ops label : ℚ) / (mk : ℚ) else 0))

/-- The distinct job ids occurring in the scheduled operations (the key set
of the `job_flow_times` dict). -/
def flowJobIds (ops : List ScheduledOperation) : List String :=
  (ops.map (fun s => s.job_id)).dedup

/-- Earliest start of a job's scheduled operations. -/
def jobMinStart (ops : List ScheduledOperation) (jid : String) : Nat :=
  match (ops.filter (fun s => s.job_id == jid)).map (fun s => s.start_time) with
  | [] => 0
  | x :: xs => xs.foldr min x

/-- Latest end of a job's scheduled operations. -/
def jobMaxEnd (ops : List ScheduledOperation) (jid : String) : Nat :=
  maxList ((ops.filter (fun s => s.job_id == jid)).map (fun s => s.end_time))

/-- `total_flow_time = sum(end - start for start, end in job_flow_times.values())`. -/
def totalFlow (ops : List ScheduledOperation) : Nat :=
  ((flowJobIds ops).map (fun jid => jobMaxEnd ops jid - jobMinStart ops jid)).sum

/-- `average_flow_time = total_flow_time / len(jobs) if jobs else 0`. -/
def avgOf (ops : List ScheduledOperation) (numJobs : Nat) : ℚ :=
  if numJobs = 0 then 0 else (totalFlow ops : ℚ) / (numJobs : ℚ)

/-- The `Schedule` assembled from a solver assignment: the `makespan` field
is read from the `makespan` variable (not recomputed from the output), and
the KPIs are computed from the scheduled operations exactly as in the
result-processing section of `solve_jssp`. -/
def decodeSchedule (jobs : List Job) (groups : List MachineGroup) (A : Assignment) :
    Schedule :=
  let ops := decodeOps jobs groups A
  let mk := makespanVal jobs groups A
  ⟨mk, ops, utilOf ops mk, avgOf ops jobs.length⟩

/-- `sched` is a Schedule value that `solve_jssp` can return: the pre-model
checks pass and the engine found a feasible (or optimal) assignment, which
the result loop decodes. -/
def Returns (jobs : List Job) (groups : List MachineGroup) (sched : Schedule) : Prop :=
  solveJsspPath jobs groups = SolvePath.modelBuilt ∧
    ∃ A, Feasible jobs groups A ∧ sched = decodeSchedule jobs groups A

/-- Uniqueness of job ids, part of the spec data model (`Job: id (unique)`;
in the running system it is enforced by the database primary key). -/
def UniqueJobIds (jobs : List Job) : Prop :=
  (jobs.map (fun j => j.id)).Nodup

/-- Uniqueness of operation ids within each job, part of the spec data model
(`Operation: id (unique within job)`). -/
def UniqueOpIds (jobs : List Job) : Prop :=
  ∀ j ∈ jobs, (j.operation_list.map (fun op => op.id)).Nodup

instance (jobs : List Job) : Decidable (UniqueJobIds jobs) := by
  unfold UniqueJobIds; exact inferInstance

instance (jobs : List Job) : Decidable (UniqueOpIds jobs) := by
  unfold UniqueOpIds; exact inferInstance

/-- One entry of the `operations` payload validated by
`validate_operations` in `scheduling.py`; `.get` of a missing key yields
`None`, embedded as `Option`, and a non-integer `processing_time` (for which
`int(...)` raises) is also embedded as `none`. -/
structure OpData where
  id : String
  machine_group_id : Option String
  processing_time : Option Int
deriving DecidableEq

/-- `mg_id in valid_mg_ids` for one payload entry (`.get` of a missing key
yields `None`, which is never a valid id). -/
def opGroupOk (validIds : List String) (op : OpData) : Bool :=
  match op.machine_group_id with
  | some g => validIds.contains g
  | none => false

/-- `int(proc_time) > 0` for one payload entry (a missing or non-integer
`processing_time`, for which `int(...)` raises, is embedded as `none`). -/
def opTimeOk (op : OpData) : Bool :=
  match op.processing_time with
  | some t => decide (0 < t)
  | none => false

/-- `validate_operations(ops_data, valid_mg_ids)`: returns `(False, msg)`
for an empty payload, the first operation whose `machine_group_id` is not a
valid id, or the first non-positive or missing `processing_time`;
otherwise `(True, "")`.  No field other than `machine_group_id` and
`processing_time` is inspected. -/
def validateOperations (ops : List OpData) (validIds : List String) : Bool × String :=
  match ops with
  | [] => (false, "Missing operations data.")
  | _ =>
    match ops.find? (fun op => !opGroupOk validIds op) with
    | some _ => (false, "Invalid machine_group_id.")
    | none =>
      match ops.find? (fun op => !opTimeOk op) with
      | some _ => (false, "Invalid processing_time.")
      | none => (true, "")

/-- Result of `_tool_solve_schedule` as far as the solver pipeline is
concerned. -/
inductive ToolSolveResult where
  | nothingToSolve : ToolSolveResult
  | solverFailed : ToolSolveResult
  | success : Schedule → ToolSolveResult
deriving DecidableEq

/-- The pipeline guard of `_tool_solve_schedule`: with no jobs or no machine
groups it returns the error `"Cannot solve: No jobs or machines in
scenario."` without calling `solve_jssp`; otherwise the engine (abstracted
as `engine`) is invoked and its `None` result is reported as a failure. -/
def toolSolveSchedule (jobs : List Job) (groups : List MachineGroup)
    (engine : List Job → List MachineGroup → Option Schedule) : ToolSolveResult :=
  if jobs.isEmpty || groups.isEmpty then ToolSolveResult.nothingToSolve
  else
    match engine jobs groups with
    | none => ToolSolveResult.solverFailed
    | some s => ToolSolveResult.success s

/-- Multiply one operation's `processing_time` by `c`. -/
def scaleOp (c : Nat) (op : Operation) : Operation :=
  { op with processing_time := c * op.processing_time }

/-- Multiply every `processing_time` of a job by `c`. -/
def scaleJob (c : Nat) (j : Job) : Job :=
  { j with operation_list := j.operation_list.map (scaleOp c) }

/-- The input with every `processing_time` multiplied by `c`. -/
def scaleJobs (c : Nat) (jobs : List Job) : List Job := jobs.map (scaleJob c)

/-- Multiply every unit start/end value of an assignment by `c`. -/
def scaleAssign (c : Nat) (A : Assignment) : Assignment :=
  fun ji oi ci => ⟨c * (A ji oi ci).start, c * (A ji oi ci).end_, (A ji oi ci).presence⟩

/-- Divide (floor) every unit start/end value of an assignment by `c`. -/
def divAssign (c : Nat) (A : Assignment) : Assignment :=
  fun ji oi ci => ⟨(A ji oi ci).start / c, (A ji oi ci).end_ / c, (A ji oi ci).presence⟩

/-- A single-instance machine group `G`, used by several concrete inputs. -/
def groupG : MachineGroup := ⟨"G", "pool", 1⟩

/-- Two single-operation jobs competing for `G` (durations 1 and 2). -/
def jobsTwo : List Job :=
  [⟨"J1", "one", 1, [⟨"O1", "G", 1, []⟩]⟩, ⟨"J2", "two", 1, [⟨"O2", "G", 2, []⟩]⟩]

/-- `jobsTwo` schedule running `J1` first (`O1` at `[0,1)`, `O2` at `[1,3)`). -/
def assignTwoA : Assignment := fun ji oi c =>
  match ji, oi, c with
  | 0, 0, 0 => ⟨0, 1, true⟩
  | 1, 0, 0 => ⟨1, 3, true⟩
  | _, _, _ => ⟨0, 0, false⟩

/-- `jobsTwo` schedule running `J2` first (`O2` at `[0,2)`, `O1` at `[2,3)`). -/
def assignTwoB : Assignment := fun ji oi c =>
  match ji, oi, c with
  | 0, 0, 0 => ⟨2, 3, true⟩
  | 1, 0, 0 => ⟨0, 2, true⟩
  | _, _, _ => ⟨0, 0, false⟩

/-- One job with one operation on a machine group of quantity 0. -/
def jobsZeroQty : List Job := [⟨"J", "j", 1, [⟨"O", "G", 1, []⟩]⟩]

/-- A single machine group with quantity 0. -/
def groupsZeroQty : List MachineGroup := [⟨"G", "g", 0⟩]

/-- One job whose first listed operation (duration 5) has no precedence
relation with its last listed operation (duration 1). -/
def jobsSix : List Job := [⟨"J", "j", 1, [⟨"A", "G", 5, []⟩, ⟨"B", "G", 1, []⟩]⟩]

/-- The machine list for `jobsSix`: the single-instance group `G`. -/
def groupsSix : List MachineGroup := [groupG]

/-- The optimal schedule of `jobsSix`: `B` at `[0,1)`, then `A` at `[1,6)`. -/
def assignSix : Assignment := fun ji oi c =>
  match ji, oi, c with
  | 0, 0, 0 => ⟨1, 6, true⟩
  | 0, 1, 0 => ⟨0, 1, true⟩
  | _, _, _ => ⟨0, 0, false⟩

/-- The monotonicity instance: a high-priority single-operation job
(`O` on `G1`, duration `d`) and a low-priority chain `B → E`
(`B` on `G1` duration 2, then `E` on `G2` duration 8). -/
def jobsMono (d : Nat) : List Job :=
  [⟨"JH", "high", 5, [⟨"O", "G1", d, []⟩]⟩,
   ⟨"JL", "low", 1, [⟨"B", "G1", 2, []⟩, ⟨"E", "G2", 8, ["B"]⟩]⟩]

/-- Machine groups for `jobsMono`: single-instance `G1` and `G2`. -/
def groupsMono : List MachineGroup := [⟨"G1", "g1", 1⟩, ⟨"G2", "g2", 1⟩]

/-- Optimal schedule of `jobsMono 9`: `O` at `[0,9)`, `B` at `[9,11)`,
`E` at `[11,19)` (makespan variable 19). -/
def assignMono9 : Assignment := fun ji oi c =>
  match ji, oi, c with
  | 0, 0, 0 => ⟨0, 9, true⟩
  | 1, 0, 0 => ⟨9, 11, true⟩
  | 1, 1, 0 => ⟨11, 19, true⟩
  | _, _, _ => ⟨0, 0, false⟩

/-- Optimal schedule of `jobsMono 10`: `B` at `[0,2)`, `O` at `[2,12)`,
`E` at `[2,10)` (makespan variable 12). -/
def assignMono10 : Assignment := fun ji oi c =>
  match ji, oi, c with
  | 0, 0, 0 => ⟨2, 12, true⟩
  | 1, 0, 0 => ⟨0, 2, true⟩
  | 1, 1, 0 => ⟨2, 10, true⟩
  | _, _, _ => ⟨0, 0, false⟩

/-- One job with a single zero-duration operation on `G`. -/
def jobsZeroDur : List Job := [⟨"J", "j", 1, [⟨"O", "G", 0, []⟩]⟩]

/-- The unique schedule of `jobsZeroDur` (everything at time 0). -/
def assignZeroDur : Assignment := fun _ _ _ => ⟨0, 0, true⟩

/-- Sum of all job priorities (equal to the Python `max_priority` when the
job list is non-empty). -/
def sumPriorities (jobs : List Job) : Nat := (jobs.map (fun j => j.priority)).sum

/-- An operations payload with two entries sharing the id `"X"`, both with a
valid group and a positive duration. -/
def opsDataDup : List OpData := [⟨"X", some "G", some 3⟩, ⟨"X", some "G", some 2⟩]

/-! ### Basic list lemmas -/

theorem le_maxList {l : List Nat} {x : Nat} (hx : x ∈ l) : x ≤ maxList l := by
  induction l with
  | nil => cases hx
  | cons a t ih =>
    rcases List.mem_cons.mp hx with h | h
    · subst h; exact le_max_left _ _
    · exact le_trans (ih h) (le_max_right _ _)

theorem maxList_le {l : List Nat} {b : Nat} (h : ∀ x ∈ l, x ≤ b) : maxList l ≤ b := by
  induction l with
  | nil => exact Nat.zero_le b
  | cons a t ih =>
    exact max_le (h a (List.mem_cons_self a t))
      (ih (fun x hx => h x (List.mem_cons_of_mem a hx)))

theorem maxList_mul (c : Nat) (l : List Nat) :
    maxList (l.map (fun x => c * x)) = c * maxList l := by
  induction l with
  | nil => simp [maxList]
  | cons a t ih =>
    simp only [List.map_cons, maxList, List.foldr_cons] at *
    rw [ih]
    rcases le_total a (t.foldr max 0) with h | h
    · rw [max_eq_right h, max_eq_right (Nat.mul_le_mul_left c h)]
    · rw [max_eq_left h, max_eq_left (Nat.mul_le_mul_left c h)]

theorem maxList_div (c : Nat) (l : List Nat) :
    maxList (l.map (fun x => x / c)) = maxList l / c := by
  induction l with
  | nil => simp [maxList]
  | cons a t ih =>
    simp only [List.map_cons, maxList, List.foldr_cons] at *
    rw [ih]
    rcases le_total a (t.foldr max 0) with h | h
    · rw [max_eq_right h, max_eq_right (Nat.div_le_div_right h)]
    · rw [max_eq_left h, max_eq_left (Nat.div_le_div_right h)]

theorem maxList_eq_zero {l : List Nat} (h : maxList l = 0) : ∀ x ∈ l, x = 0 :=
  fun x hx => Nat.le_zero.mp (h ▸ le_maxList hx)

theorem range_map_getD {α β : Type} (l : List α) (d : α) (f : α → β) :
    (List.range l.length).map (fun i => f (l.getD i d)) = l.map f := by
  apply List.ext_getElem
  · simp
  · intro i h1 h2
    simp only [List.getElem_map, List.getElem_range]
    rw [List.getD_eq_getElem l d (by simpa using h2)]

/-! ### `lookupPos` -/

theorem lookupPos_lt {j : Job} (h : 0 < j.operation_list.length) (oid : String) :
    lookupPos j oid < j.operation_list.length := by
  unfold lookupPos
  cases hf : (List.range j.operation_list.length).reverse.find?
      (fun k => (opAt j k).id == oid) with
  | none => exact h
  | some k =>
    have hk := List.mem_of_find?_eq_some hf
    rw [List.mem_reverse, List.mem_range] at hk
    exact hk

theorem getD_inj_of_nodup_map {α β : Type} {l : List α} {f : α → β}
    (hnd : (l.map f).Nodup) {d : α} {a b : Nat} (ha : a < l.length) (hb : b < l.length)
    (h : f (l.getD a d) = f (l.getD b d)) : a = b := by
  have hkid2 : f (l.get ⟨a, ha⟩) = f (l.get ⟨b, hb⟩) := by
    rw [List.getD_eq_getElem _ d ha, List.getD_eq_getElem _ d hb] at h
    simpa using h
  have h1 : (l.map f).get ⟨a, by simpa using ha⟩ = (l.map f).get ⟨b, by simpa using hb⟩ := by
    simp only [List.get_eq_getElem, List.getElem_map]
    simpa using hkid2
  have h2 := (List.Nodup.get_inj_iff hnd).mp h1
  simpa using congrArg Fin.val h2

theorem opPos_inj {j : Job} (hnd : (j.operation_list.map (fun op => op.id)).Nodup)
    {a b : Nat} (ha : a < j.operation_list.length) (hb : b < j.operation_list.length)
    (h : (opAt j a).id = (opAt j b).id) : a = b :=
  getD_inj_of_nodup_map hnd ha hb h

theorem jobPos_inj {jobs : List Job} (hnd : (jobs.map (fun j => j.id)).Nodup)
    {a b : Nat} (ha : a < jobs.length) (hb : b < jobs.length)
    (h : (jobAt jobs a).id = (jobAt jobs b).id) : a = b :=
  getD_inj_of_nodup_map hnd ha hb h

theorem lookupPos_self {j : Job} (hnd : (j.operation_list.map (fun op => op.id)).Nodup)
    {oi : Nat} (hoi : oi < j.operation_list.length) :
    lookupPos j ((opAt j oi).id) = oi := by
  have hid : ∀ k, k < j.operation_list.length → (opAt j k).id = (opAt j oi).id → k = oi :=
    fun k hk hkid => opPos_inj hnd hk hoi hkid
  unfold lookupPos
  cases hf : (List.range j.operation_list.length).reverse.find?
      (fun k => (opAt j k).id == (opAt j oi).id) with
  | none =>
    exfalso
    rw [List.find?_eq_none] at hf
    exact hf oi (by simp [List.mem_reverse, List.mem_range, hoi]) (by simp)
  | some k =>
    have hp := List.find?_some hf
    have hk := List.mem_of_find?_eq_some hf
    rw [List.mem_reverse, List.mem_range] at hk
    exact hid k hk (by simpa using hp)

/-! ### Structure of scaled inputs -/

theorem scaleOp_one (op : Operation) : scaleOp 1 op = op := by
  cases op; simp [scaleOp]

theorem scaleJob_one (j : Job) : scaleJob 1 j = j := by
  cases j with
  | mk i n p l =>
    simp only [scaleJob]
    congr 1
    induction l with
    | nil => rfl
    | cons a t ih => simp only [List.map_cons, scaleOp_one, List.cons.injEq] at *; exact ⟨trivial, ih⟩

theorem scaleJobs_one (jobs : List Job) : scaleJobs 1 jobs = jobs := by
  unfold scaleJobs
  induction jobs with
  | nil => rfl
  | cons a t ih => simp only [List.map_cons, scaleJob_one, List.cons.injEq] at *; exact ⟨trivial, ih⟩

theorem scaleAssign_one (A : Assignment) : scaleAssign 1 A = A := by
  funext ji oi ci
  simp [scaleAssign]

theorem scaleJob_default (c : Nat) : scaleJob c defaultJob = defaultJob := by
  simp [scaleJob, defaultJob]

theorem scaleOp_default (c : Nat) : scaleOp c defaultOp = defaultOp := by
  simp [scaleOp, defaultOp]

theorem length_scaleJobs (c : Nat) (jobs : List Job) :
    (scaleJobs c jobs).length = jobs.length := by
  simp [scaleJobs]

theorem jobAt_scaleJobs (c : Nat) (jobs : List Job) (ji : Nat) :
    jobAt (scaleJobs c jobs) ji = scaleJob c (jobAt jobs ji) := by
  unfold jobAt scaleJobs
  rcases Nat.lt_or_ge ji jobs.length with h | h
  · rw [List.getD_eq_getElem _ defaultJob (by simpa), List.getD_eq_getElem _ defaultJob h]
    simp
  · rw [List.getD_eq_default _ defaultJob (by simpa), List.getD_eq_default _ defaultJob h,
      scaleJob_default]

theorem opList_scaleJob (c : Nat) (j : Job) :
    (scaleJob c j).operation_list = j.operation_list.map (scaleOp c) := rfl

theorem opAt_scaleJob (c : Nat) (j : Job) (oi : Nat) :
    opAt (scaleJob c j) oi = scaleOp c (opAt j oi) := by
  unfold opAt
  rw [opList_scaleJob]
  rcases Nat.lt_or_ge oi j.operation_list.length with h | h
  · rw [List.getD_eq_getElem _ defaultOp (by simpa), List.getD_eq_getElem _ defaultOp h]
    simp
  · rw [List.getD_eq_default _ defaultOp (by simpa), List.getD_eq_default _ defaultOp h,
      scaleOp_default]

theorem opLen_scaleJob (c : Nat) (j : Job) :
    (scaleJob c j).operation_list.length = j.operation_list.length := by
  rw [opList_scaleJob]; simp

theorem scaleOp_id (c : Nat) (op : Operation) : (scaleOp c op).id = op.id := rfl

theorem scaleOp_group (c : Nat) (op : Operation) :
    (scaleOp c op).machine_group_id = op.machine_group_id := rfl

theorem scaleOp_preds (c : Nat) (op : Operation) :
    (scaleOp c op).predecessors = op.predecessors := rfl

theorem scaleOp_time (c : Nat) (op : Operation) :
    (scaleOp c op).processing_time = c * op.processing_time := rfl

theorem scaleJob_id (c : Nat) (j : Job) : (scaleJob c j).id = j.id := rfl

theorem scaleJob_priority (c : Nat) (j : Job) : (scaleJob c j).priority = j.priority := rfl

theorem opQty_scaleOp (c : Nat) (groups : List MachineGroup) (op : Operation) :
    opQty groups (scaleOp c op) = opQty groups op := rfl

theorem lookupPos_scaleJob (c : Nat) (j : Job) (oid : String) :
    lookupPos (scaleJob c j) oid = lookupPos j oid := by
  unfold lookupPos
  rw [opLen_scaleJob]
  have : (fun k => ((opAt (scaleJob c j) k).id == oid)) =
      (fun k => ((opAt j k).id == oid)) := by
    funext k
    rw [opAt_scaleJob, scaleOp_id]
  rw [this]

theorem horizon_scaleJobs (c : Nat) (jobs : List Job) :
    horizon (scaleJobs c jobs) = c * horizon jobs := by
  unfold horizon scaleJobs
  rw [List.map_map]
  have : ((fun j => ((j.operation_list.map (fun op => op.processing_time)).sum)) ∘ scaleJob c)
      = fun j => c * (j.operation_list.map (fun op => op.processing_time)).sum := by
    funext j
    simp only [Function.comp, opList_scaleJob, List.map_map]
    have : ((fun op => op.processing_time) ∘ scaleOp c) =
        fun op => c * op.processing_time := by
      funext op; rfl
    rw [this, ← List.sum_map_mul_left]
  rw [this, ← List.sum_map_mul_left]

theorem jobsWithOps_scaleJobs (c : Nat) (jobs : List Job) :
    jobsWithOps (scaleJobs c jobs) = jobsWithOps jobs := by
  unfold jobsWithOps
  rw [length_scaleJobs]
  congr 1
  funext ji
  rw [jobAt_scaleJobs, opList_scaleJob]
  cases (jobAt jobs ji).operation_list <;> rfl

theorem lastOpPos_scaleJob (c : Nat) (j : Job) : lastOpPos (scaleJob c j) = lastOpPos j := by
  unfold lastOpPos
  rw [opLen_scaleJob, opAt_scaleJob, scaleOp_id, lookupPos_scaleJob]

theorem jobEndVal_scaleAssign (c : Nat) (groups : List MachineGroup) (A : Assignment)
    (ji : Nat) (j : Job) :
    jobEndVal groups (scaleAssign c A) ji (scaleJob c j) = c * jobEndVal groups A ji j := by
  unfold jobEndVal
  rw [lastOpPos_scaleJob, opAt_scaleJob, opQty_scaleOp, ← maxList_mul, List.map_map]
  rfl

theorem jobEndVal_divAssign (c : Nat) (groups : List MachineGroup) (A : Assignment)
    (ji : Nat) (j : Job) :
    jobEndVal groups (divAssign c A) ji j = jobEndVal groups A ji j / c := by
  unfold jobEndVal
  rw [← maxList_div, List.map_map]
  congr 1

theorem makespanVal_scale (c : Nat) (jobs : List Job) (groups : List MachineGroup)
    (A : Assignment) :
    makespanVal (scaleJobs c jobs) groups (scaleAssign c A) = c * makespanVal jobs groups A := by
  unfold makespanVal
  rw [jobsWithOps_scaleJobs, ← maxList_mul, List.map_map]
  congr 1
  refine List.map_congr_left ?_
  intro ji _
  simp only [Function.comp]
  rw [jobAt_scaleJobs, jobEndVal_scaleAssign]

theorem jobEndVal_scaleJob (c : Nat) (groups : List MachineGroup) (A : Assignment)
    (ji : Nat) (j : Job) :
    jobEndVal groups A ji (scaleJob c j) = jobEndVal groups A ji j := by
  unfold jobEndVal
  rw [lastOpPos_scaleJob, opAt_scaleJob, opQty_scaleOp]

theorem makespanVal_div (c : Nat) (jobs : List Job) (groups : List MachineGroup)
    (A : Assignment) :
    makespanVal jobs groups (divAssign c A) = makespanVal (scaleJobs c jobs) groups A / c := by
  unfold makespanVal
  rw [jobsWithOps_scaleJobs, ← maxList_div, List.map_map]
  congr 1
  refine List.map_congr_left ?_
  intro ji _
  simp only [Function.comp]
  rw [jobEndVal_divAssign, jobAt_scaleJobs, jobEndVal_scaleJob]

theorem primaryVal_scale (c : Nat) (jobs : List Job) (groups : List MachineGroup)
    (A : Assignment) :
    primaryVal (scaleJobs c jobs) groups (scaleAssign c A) = c * primaryVal jobs groups A := by
  unfold primaryVal
  rw [jobsWithOps_scaleJobs, ← List.sum_map_mul_left]
  congr 1
  refine List.map_congr_left ?_
  intro ji _
  rw [jobAt_scaleJobs, scaleJob_priority, jobEndVal_scaleAssign]
  ring

theorem primaryVal_div_le (c : Nat) (jobs : List Job) (groups : List MachineGroup)
    (A : Assignment) :
    c * primaryVal jobs groups (divAssign c A) ≤ primaryVal (scaleJobs c jobs) groups A := by
  unfold primaryVal
  rw [jobsWithOps_scaleJobs, ← List.sum_map_mul_left]
  apply List.sum_le_sum
  intro ji _
  rw [jobEndVal_divAssign, jobAt_scaleJobs, scaleJob_priority]
  have h1 : jobEndVal groups A ji (jobAt jobs ji) / c ≤
      jobEndVal groups A ji (scaleJob c (jobAt jobs ji)) / c :=
    Nat.div_le_div_right (le_of_eq (jobEndVal_scaleJob c groups A ji (jobAt jobs ji)).symm)
  calc c * ((jobAt jobs ji).priority * (jobEndVal groups A ji (jobAt jobs ji) / c))
      ≤ c * ((jobAt jobs ji).priority *
        (jobEndVal groups A ji (scaleJob c (jobAt jobs ji)) / c)) := by
        exact Nat.mul_le_mul_left c (Nat.mul_le_mul_left _ h1)
    _ = (jobAt jobs ji).priority *
        (c * (jobEndVal groups A ji (scaleJob c (jobAt jobs ji)) / c)) := by ring
    _ ≤ (jobAt jobs ji).priority * jobEndVal groups A ji (scaleJob c (jobAt jobs ji)) :=
        Nat.mul_le_mul_left _ (Nat.mul_div_le _ c)

/-! ### Projection lemmas for assignment maps -/

theorem scaleAssign_start (c : Nat) (A : Assignment) (ji oi ci : Nat) :
    (scaleAssign c A ji oi ci).start = c * (A ji oi ci).start := rfl

theorem scaleAssign_end (c : Nat) (A : Assignment) (ji oi ci : Nat) :
    (scaleAssign c A ji oi ci).end_ = c * (A ji oi ci).end_ := rfl

theorem scaleAssign_presence (c : Nat) (A : Assignment) (ji oi ci : Nat) :
    (scaleAssign c A ji oi ci).presence = (A ji oi ci).presence := rfl

theorem divAssign_start (c : Nat) (A : Assignment) (ji oi ci : Nat) :
    (divAssign c A ji oi ci).start = (A ji oi ci).start / c := rfl

theorem divAssign_end (c : Nat) (A : Assignment) (ji oi ci : Nat) :
    (divAssign c A ji oi ci).end_ = (A ji oi ci).end_ / c := rfl

theorem divAssign_presence (c : Nat) (A : Assignment) (ji oi ci : Nat) :
    (divAssign c A ji oi ci).presence = (A ji oi ci).presence := rfl

/-! ### Bounds from the variable domains -/

theorem jobEndVal_le_horizon {jobs : List Job} {groups : List MachineGroup}
    {A : Assignment} (hd : DomainsOk jobs groups A) {ji : Nat} (hji : ji < jobs.length)
    (hne : 0 < (jobAt jobs ji).operation_list.length) :
    jobEndVal groups A ji (jobAt jobs ji) ≤ horizon jobs := by
  unfold jobEndVal
  apply maxList_le
  intro x hx
  rw [List.mem_map] at hx
  obtain ⟨c, hc, rfl⟩ := hx
  rw [List.mem_range] at hc
  exact (hd ji hji _ (lookupPos_lt hne _) c hc).2

theorem mem_jobsWithOps {jobs : List Job} {ji : Nat} :
    ji ∈ jobsWithOps jobs ↔
      ji < jobs.length ∧ 0 < (jobAt jobs ji).operation_list.length := by
  unfold jobsWithOps
  rw [List.mem_filter, List.mem_range]
  constructor
  · rintro ⟨h1, h2⟩
    refine ⟨h1, ?_⟩
    cases hl : (jobAt jobs ji).operation_list with
    | nil => rw [hl] at h2; simp at h2
    | cons a t => simp
  · rintro ⟨h1, h2⟩
    refine ⟨h1, ?_⟩
    cases hl : (jobAt jobs ji).operation_list with
    | nil => rw [hl] at h2; simp at h2
    | cons a t => simp

theorem makespanVal_le_horizon {jobs : List Job} {groups : List MachineGroup}
    {A : Assignment} (hd : DomainsOk jobs groups A) :
    makespanVal jobs groups A ≤ horizon jobs := by
  unfold makespanVal
  apply maxList_le
  intro x hx
  rw [List.mem_map] at hx
  obtain ⟨ji, hji, rfl⟩ := hx
  obtain ⟨h1, h2⟩ := mem_jobsWithOps.mp hji
  exact jobEndVal_le_horizon hd h1 h2

theorem priorities_range_map (jobs : List Job) :
    (List.range jobs.length).map (fun ji => (jobAt jobs ji).priority) =
      jobs.map (fun j => j.priority) :=
  range_map_getD jobs defaultJob (fun j => j.priority)

theorem primaryVal_le {jobs : List Job} {groups : List MachineGroup}
    {A : Assignment} (hd : DomainsOk jobs groups A) :
    primaryVal jobs groups A ≤ horizon jobs * sumPriorities jobs := by
  unfold primaryVal
  calc ((jobsWithOps jobs).map
        (fun ji => (jobAt jobs ji).priority * jobEndVal groups A ji (jobAt jobs ji))).sum
      ≤ ((jobsWithOps jobs).map (fun ji => (jobAt jobs ji).priority * horizon jobs)).sum := by
        apply List.sum_le_sum
        intro ji hji
        obtain ⟨h1, h2⟩ := mem_jobsWithOps.mp hji
        exact Nat.mul_le_mul_left _ (jobEndVal_le_horizon hd h1 h2)
    _ = ((jobsWithOps jobs).map (fun ji => (jobAt jobs ji).priority)).sum * horizon jobs := by
        rw [← List.sum_map_mul_right]
    _ ≤ ((List.range jobs.length).map (fun ji => (jobAt jobs ji).priority)).sum *
          horizon jobs := by
        apply Nat.mul_le_mul_right
        apply List.Sublist.sum_le_sum
        · exact List.Sublist.map _ (List.filter_sublist _)
        · intro a _; exact Nat.zero_le a
    _ = horizon jobs * sumPriorities jobs := by
        rw [priorities_range_map]
        unfold sumPriorities
        ring

theorem horizon_pos_jobs_nonempty {jobs : List Job} (h : 0 < horizon jobs) :
    ¬jobs.isEmpty = true := by
  intro he
  rw [List.isEmpty_iff] at he
  subst he
  simp [horizon] at h

theorem objDomainOk_auto {jobs : List Job} {groups : List MachineGroup} {A : Assignment}
    (h2 : 2 ≤ horizon jobs) (hd : DomainsOk jobs groups A) : ObjDomainOk jobs groups A := by
  unfold ObjDomainOk objVal
  have hP := primaryVal_le hd
  have hM := makespanVal_le_horizon hd
  have hmp : maxPriority jobs = sumPriorities jobs := by
    unfold maxPriority sumPriorities
    rw [if_neg (horizon_pos_jobs_nonempty (by omega))]
  rw [hmp]
  have hS : sumPriorities jobs ≤ max 1 (sumPriorities jobs) := le_max_right _ _
  have key : (horizon jobs + 1) * (horizon jobs * sumPriorities jobs) ≤
      horizon jobs * horizon jobs * horizon jobs * max 1 (sumPriorities jobs) := by
    have h3 : horizon jobs + 1 ≤ horizon jobs * horizon jobs := by nlinarith
    calc (horizon jobs + 1) * (horizon jobs * sumPriorities jobs)
        ≤ (horizon jobs * horizon jobs) * (horizon jobs * sumPriorities jobs) :=
          Nat.mul_le_mul_right _ h3
      _ = horizon jobs * horizon jobs * horizon jobs * sumPriorities jobs := by ring
      _ ≤ horizon jobs * horizon jobs * horizon jobs * max 1 (sumPriorities jobs) :=
          Nat.mul_le_mul_left _ hS
  have hP2 : (horizon jobs + 1) * primaryVal jobs groups A ≤
      (horizon jobs + 1) * (horizon jobs * sumPriorities jobs) :=
    Nat.mul_le_mul_left _ hP
  omega

/-! ### Transfer of feasibility along scaling and flooring -/

theorem opIds_scaleJob (c : Nat) (j : Job) :
    (scaleJob c j).operation_list.map (fun op => op.id) =
      j.operation_list.map (fun op => op.id) := by
  rw [opList_scaleJob, List.map_map]
  rfl

theorem unitPositions_scaleJobs (c : Nat) (jobs : List Job) (groups : List MachineGroup) :
    unitPositions (scaleJobs c jobs) groups = unitPositions jobs groups := by
  unfold unitPositions
  rw [length_scaleJobs]
  congr 1
  funext ji
  rw [jobAt_scaleJobs, opLen_scaleJob]
  congr 1
  funext oi
  rw [opAt_scaleJob, opQty_scaleOp]

theorem unitLabel_scaleJobs (c : Nat) (jobs : List Job) (p : Nat × Nat × Nat) :
    unitLabel (scaleJobs c jobs) p = unitLabel jobs p := by
  unfold unitLabel
  rw [jobAt_scaleJobs, opAt_scaleJob, scaleOp_group]

theorem unitAt_scaleAssign_presence (c : Nat) (A : Assignment) (p : Nat × Nat × Nat) :
    (unitAt (scaleAssign c A) p).presence = (unitAt A p).presence := rfl

theorem unitAt_divAssign_presence (c : Nat) (A : Assignment) (p : Nat × Nat × Nat) :
    (unitAt (divAssign c A) p).presence = (unitAt A p).presence := rfl

theorem feasibleCore_scale {jobs : List Job} {groups : List MachineGroup} {A : Assignment}
    (c : Nat) (hF : FeasibleCore jobs groups A) :
    FeasibleCore (scaleJobs c jobs) groups (scaleAssign c A) := by
  obtain ⟨hd, hp, he, hprec, hov⟩ := hF
  refine ⟨?_, ?_, ?_, ?_, ?_⟩
  · intro ji hji oi hoi ci hci
    simp only [length_scaleJobs] at hji
    simp only [jobAt_scaleJobs, opLen_scaleJob] at hoi
    simp only [jobAt_scaleJobs, opAt_scaleJob, opQty_scaleOp] at hci
    simp only [horizon_scaleJobs, scaleAssign_start, scaleAssign_end]
    have h1 := hd ji hji oi hoi ci hci
    exact ⟨Nat.mul_le_mul_left c h1.1, Nat.mul_le_mul_left c h1.2⟩
  · intro ji hji oi hoi ci hci hpres
    simp only [length_scaleJobs] at hji
    simp only [jobAt_scaleJobs, opLen_scaleJob] at hoi
    simp only [jobAt_scaleJobs, opAt_scaleJob, opQty_scaleOp] at hci
    simp only [scaleAssign_presence] at hpres
    simp only [jobAt_scaleJobs, opAt_scaleJob, scaleOp_time, scaleAssign_end,
      scaleAssign_start]
    rw [hp ji hji oi hoi ci hci hpres]
    ring
  · intro ji hji oi hoi
    simp only [length_scaleJobs] at hji
    simp only [jobAt_scaleJobs, opLen_scaleJob] at hoi
    simp only [jobAt_scaleJobs, opAt_scaleJob, opQty_scaleOp, scaleAssign_presence]
    exact he ji hji oi hoi
  · intro ji hji oi hoi pid hpid hmem ci hci cp hcp
    simp only [length_scaleJobs] at hji
    simp only [jobAt_scaleJobs, opLen_scaleJob] at hoi
    simp only [jobAt_scaleJobs, opAt_scaleJob, scaleOp_preds] at hpid
    simp only [jobAt_scaleJobs, opIds_scaleJob] at hmem
    simp only [jobAt_scaleJobs, opAt_scaleJob, scaleOp_id, lookupPos_scaleJob,
      opQty_scaleOp] at hci hcp
    simp only [jobAt_scaleJobs, opAt_scaleJob, scaleOp_id, lookupPos_scaleJob,
      scaleAssign_end, scaleAssign_start]
    exact Nat.mul_le_mul_left c (hprec ji hji oi hoi pid hpid hmem ci hci cp hcp)
  · intro p1 hp1 p2 hp2 hne hlab hpres1 hpres2
    simp only [unitPositions_scaleJobs] at hp1 hp2
    simp only [unitLabel_scaleJobs] at hlab
    simp only [unitAt_scaleAssign_presence] at hpres1 hpres2
    have h1 := hov p1 hp1 p2 hp2 hne hlab hpres1 hpres2
    simp only [unitAt, scaleAssign]
    rcases h1 with h1 | h1
    · exact Or.inl (Nat.mul_le_mul_left c h1)
    · exact Or.inr (Nat.mul_le_mul_left c h1)

theorem feasibleCore_div {jobs : List Job} {groups : List MachineGroup} {A : Assignment}
    {c : Nat} (hc : 0 < c) (hF : FeasibleCore (scaleJobs c jobs) groups A) :
    FeasibleCore jobs groups (divAssign c A) := by
  obtain ⟨hd, hp, he, hprec, hov⟩ := hF
  unfold DomainsOk at hd
  unfold PresentIntervalsOk at hp
  unfold ExactlyOneOk at he
  unfold PrecedenceOk at hprec
  unfold NoOverlapOk at hov
  simp only [length_scaleJobs, jobAt_scaleJobs, opLen_scaleJob, opAt_scaleJob,
    opQty_scaleOp, scaleOp_id, scaleOp_preds, scaleOp_time, opIds_scaleJob,
    lookupPos_scaleJob, horizon_scaleJobs, unitPositions_scaleJobs, unitLabel_scaleJobs]
    at hd hp he hprec hov
  refine ⟨?_, ?_, ?_, ?_, ?_⟩
  · intro ji hji oi hoi ci hci
    have h1 := hd ji hji oi hoi ci hci
    rw [divAssign_start, divAssign_end]
    constructor
    · calc (A ji oi ci).start / c ≤ c * horizon jobs / c := Nat.div_le_div_right h1.1
        _ = horizon jobs := Nat.mul_div_cancel_left _ hc
    · calc (A ji oi ci).end_ / c ≤ c * horizon jobs / c := Nat.div_le_div_right h1.2
        _ = horizon jobs := Nat.mul_div_cancel_left _ hc
  · intro ji hji oi hoi ci hci hpres
    rw [divAssign_presence] at hpres
    have h1 := hp ji hji oi hoi ci hci hpres
    rw [divAssign_end, divAssign_start, h1, Nat.mul_comm c, Nat.add_mul_div_right _ _ hc]
  · intro ji hji oi hoi
    have h1 := he ji hji oi hoi
    simpa only [divAssign_presence] using h1
  · intro ji hji oi hoi pid hpid hmem ci hci cp hcp
    have h1 := hprec ji hji oi hoi pid hpid hmem ci hci cp hcp
    rw [divAssign_end, divAssign_start]
    exact Nat.div_le_div_right h1
  · intro p1 hp1 p2 hp2 hne hlab hpres1 hpres2
    rw [unitAt_divAssign_presence] at hpres1 hpres2
    have h1 := hov p1 hp1 p2 hp2 hne hlab hpres1 hpres2
    simp only [unitAt, divAssign]
    rcases h1 with h1 | h1
    · exact Or.inl (Nat.div_le_div_right h1)
    · exact Or.inr (Nat.div_le_div_right h1)

theorem feasible_scale {jobs : List Job} {groups : List MachineGroup} {A : Assignment}
    {c : Nat} (hc : 0 < c) (hF : Feasible jobs groups A) :
    Feasible (scaleJobs c jobs) groups (scaleAssign c A) := by
  obtain ⟨hcore, hobj⟩ := hF
  rcases Nat.lt_or_ge c 2 with h1 | h2
  · have hc1 : c = 1 := by omega
    subst hc1
    rw [scaleJobs_one, scaleAssign_one]
    exact ⟨hcore, hobj⟩
  · have hcore2 := feasibleCore_scale c hcore
    refine ⟨hcore2, ?_⟩
    rcases Nat.eq_zero_or_pos (horizon jobs) with hh | hh
    · unfold ObjDomainOk objVal
      have hP : primaryVal jobs groups A = 0 := by
        have := primaryVal_le hcore.1
        rw [hh] at this
        omega
      have hM : makespanVal jobs groups A = 0 := by
        have := makespanVal_le_horizon hcore.1
        rw [hh] at this
        omega
      rw [primaryVal_scale, makespanVal_scale, hP, hM]
      simp
    · exact objDomainOk_auto (by rw [horizon_scaleJobs]; nlinarith) hcore2.1

/-! ### Lexicographic dominance of the primary objective -/

theorem objVal_lt_of_primary_lt {jobs : List Job} {groups : List MachineGroup}
    {A1 A2 : Assignment} (h1 : Feasible jobs groups A1)
    (hP : primaryVal jobs groups A1 < primaryVal jobs groups A2) :
    objVal jobs groups A1 < objVal jobs groups A2 := by
  have hM1 : makespanVal jobs groups A1 ≤ horizon jobs := makespanVal_le_horizon h1.1.1
  unfold objVal
  have key : (horizon jobs + 1) * (primaryVal jobs groups A1 + 1) ≤
      (horizon jobs + 1) * primaryVal jobs groups A2 :=
    Nat.mul_le_mul_left _ hP
  rw [Nat.mul_succ] at key
  omega

/-! ### Makespan monotonicity under uniform scaling -/

/-- C9 (amended): scaling every `processing_time` by a common positive
integer factor cannot decrease the optimal makespan: if `B` is an optimal
solution of the input and `A` an optimal solution of the input with every
duration multiplied by `c ≥ 1`, the makespan value of `A` is at least that
of `B`. -/
theorem claim_C9_amended (jobs : List Job) (groups : List MachineGroup) (c : Nat)
    (A B : Assignment) (hc : 1 ≤ c)
    (hB : OptimalSolution jobs groups B)
    (hA : OptimalSolution (scaleJobs c jobs) groups A) :
    makespanVal jobs groups B ≤ makespanVal (scaleJobs c jobs) groups A := by
  obtain ⟨hBf, hBopt⟩ := hB
  obtain ⟨hAf, hAopt⟩ := hA
  have hc0 : 0 < c := hc
  have hDcore := feasibleCore_div hc0 hAf.1
  rcases Nat.lt_or_ge (horizon jobs) 2 with hh | hh
  · -- degenerate horizon (0 or 1)
    have hMB := makespanVal_le_horizon hBf.1.1
    rcases Nat.eq_zero_or_pos (makespanVal (scaleJobs c jobs) groups A) with hMA | hMA
    · -- the scaled optimum has makespan 0: so must the original one
      have hMD : makespanVal jobs groups (divAssign c A) = 0 := by
        rw [makespanVal_div, hMA]
        exact Nat.zero_div c
      have hPD : primaryVal jobs groups (divAssign c A) = 0 := by
        unfold primaryVal
        apply List.sum_eq_zero
        intro x hx
        rw [List.mem_map] at hx
        obtain ⟨ji, hji, rfl⟩ := hx
        have hji2 : ji ∈ jobsWithOps (scaleJobs c jobs) := by
          rwa [jobsWithOps_scaleJobs]
        have hmem : jobEndVal groups A ji (jobAt (scaleJobs c jobs) ji) ∈
            ((jobsWithOps (scaleJobs c jobs)).map
              (fun ji => jobEndVal groups A ji (jobAt (scaleJobs c jobs) ji))) :=
          List.mem_map_of_mem _ hji2
        have hz := maxList_eq_zero hMA _ hmem
        rw [jobAt_scaleJobs, jobEndVal_scaleJob] at hz
        rw [jobEndVal_divAssign, hz, Nat.zero_div, Nat.mul_zero]
      have hobjD : objVal jobs groups (divAssign c A) = 0 := by
        unfold objVal
        rw [hPD, hMD, Nat.mul_zero, Nat.add_zero]
      have hDf : Feasible jobs groups (divAssign c A) := by
        refine ⟨hDcore, ?_⟩
        unfold ObjDomainOk
        rw [hobjD]
        exact Nat.zero_le _
      have hle := hBopt _ hDf
      rw [hobjD] at hle
      unfold objVal at hle
      omega
    · omega
  · -- horizon at least 2
    have hDobj := objDomainOk_auto hh hDcore.1
    have hDf : Feasible jobs groups (divAssign c A) := ⟨hDcore, hDobj⟩
    have hSf : Feasible (scaleJobs c jobs) groups (scaleAssign c B) := feasible_scale hc0 hBf
    have h1 : primaryVal jobs groups B ≤ primaryVal jobs groups (divAssign c A) := by
      by_contra hcon
      push_neg at hcon
      exact absurd (hBopt _ hDf) (not_le.mpr (objVal_lt_of_primary_lt hDf hcon))
    have h2 : primaryVal (scaleJobs c jobs) groups A ≤ c * primaryVal jobs groups B := by
      by_contra hcon
      push_neg at hcon
      rw [← primaryVal_scale] at hcon
      exact absurd (hAopt _ hSf) (not_le.mpr (objVal_lt_of_primary_lt hSf hcon))
    have h3 : c * primaryVal jobs groups (divAssign c A) ≤
        primaryVal (scaleJobs c jobs) groups A := primaryVal_div_le c jobs groups A
    have hPle : primaryVal jobs groups (divAssign c A) ≤ primaryVal jobs groups B := by
      have := le_trans h3 h2
      exact Nat.le_of_mul_le_mul_left this hc0
    have hPeq : primaryVal jobs groups (divAssign c A) = primaryVal jobs groups B :=
      le_antisymm hPle h1
    have h4 := hBopt _ hDf
    unfold objVal at h4
    rw [hPeq] at h4
    have h5 : makespanVal jobs groups B ≤ makespanVal jobs groups (divAssign c A) := by
      omega
    calc makespanVal jobs groups B ≤ makespanVal jobs groups (divAssign c A) := h5
      _ = makespanVal (scaleJobs c jobs) groups A / c := makespanVal_div c jobs groups A
      _ ≤ makespanVal (scaleJobs c jobs) groups A := Nat.div_le_self _ c

/-! ### Extraction helpers for concrete instances -/

theorem presence_of_exactlyOne_single {jobs : List Job} {groups : List MachineGroup}
    {A : Assignment} (he : ExactlyOneOk jobs groups A) {ji oi : Nat}
    (hji : ji < jobs.length) (hoi : oi < (jobAt jobs ji).operation_list.length)
    (hq : opQty groups (opAt (jobAt jobs ji) oi) = 1) :
    (A ji oi 0).presence = true := by
  have e := he ji hji oi hoi
  have hr : List.range 1 = [0] := rfl
  rw [hq, hr] at e
  simp only [List.countP_cons, List.countP_nil] at e
  cases hb : (A ji oi 0).presence
  · rw [hb] at e; simp at e
  · rfl

theorem objVal_jobsMono (d : Nat) (A : Assignment) :
    objVal (jobsMono d) groupsMono A =
      (d + 11) * (5 * (A 0 0 0).end_ + (A 1 1 0).end_) +
        max (A 0 0 0).end_ (A 1 1 0).end_ := by
  have h : objVal (jobsMono d) groupsMono A =
      (d + 11) * (5 * max (A 0 0 0).end_ 0 + (1 * max (A 1 1 0).end_ 0 + 0)) +
        max (max (A 0 0 0).end_ 0) (max (max (A 1 1 0).end_ 0) 0) := rfl
  rw [h]
  simp only [Nat.max_zero, Nat.one_mul, Nat.add_zero]

theorem makespanVal_jobsMono (d : Nat) (A : Assignment) :
    makespanVal (jobsMono d) groupsMono A = max (A 0 0 0).end_ (A 1 1 0).end_ := by
  have h : makespanVal (jobsMono d) groupsMono A =
      max (max (A 0 0 0).end_ 0) (max (max (A 1 1 0).end_ 0) 0) := rfl
  rw [h]
  simp only [Nat.max_zero]

theorem assignMono9_opt : OptimalSolution (jobsMono 9) groupsMono assignMono9 := by
  constructor
  · decide
  · intro B hB
    obtain ⟨⟨hd, hp, he, hprec, hov⟩, hobj⟩ := hB
    have p0 : (B 0 0 0).presence = true :=
      presence_of_exactlyOne_single he (by decide) (by decide) rfl
    have p1 : (B 1 0 0).presence = true :=
      presence_of_exactlyOne_single he (by decide) (by decide) rfl
    have p2 : (B 1 1 0).presence = true :=
      presence_of_exactlyOne_single he (by decide) (by decide) rfl
    have q0 : (B 0 0 0).end_ = (B 0 0 0).start + 9 :=
      hp 0 (by decide) 0 (by decide) 0 (by decide) p0
    have q1 : (B 1 0 0).end_ = (B 1 0 0).start + 2 :=
      hp 1 (by decide) 0 (by decide) 0 (by decide) p1
    have q2 : (B 1 1 0).end_ = (B 1 1 0).start + 8 :=
      hp 1 (by decide) 1 (by decide) 0 (by decide) p2
    have r1 : (B 1 0 0).end_ ≤ (B 1 1 0).start :=
      hprec 1 (by decide) 1 (by decide) "B" (by decide) (by decide) 0 (by decide)
        0 (by decide)
    have s1 : (B 0 0 0).end_ ≤ (B 1 0 0).start ∨ (B 1 0 0).end_ ≤ (B 0 0 0).start :=
      hov (0, 0, 0) (by decide) (1, 0, 0) (by decide) (by decide) rfl p0 p1
    rw [objVal_jobsMono, objVal_jobsMono]
    have v0 : (assignMono9 0 0 0).end_ = 9 := rfl
    have v1 : (assignMono9 1 1 0).end_ = 19 := rfl
    rw [v0, v1]
    have hm := le_max_left (B 0 0 0).end_ (B 1 1 0).end_
    have hm2 := le_max_right (B 0 0 0).end_ (B 1 1 0).end_
    have hmx : (max 9 19 : Nat) = 19 := rfl
    rw [hmx]
    rcases s1 with s1 | s1 <;> omega

theorem assignMono10_opt : OptimalSolution (jobsMono 10) groupsMono assignMono10 := by
  constructor
  · decide
  · intro B hB
    obtain ⟨⟨hd, hp, he, hprec, hov⟩, hobj⟩ := hB
    have p0 : (B 0 0 0).presence = true :=
      presence_of_exactlyOne_single he (by decide) (by decide) rfl
    have p1 : (B 1 0 0).presence = true :=
      presence_of_exactlyOne_single he (by decide) (by decide) rfl
    have p2 : (B 1 1 0).presence = true :=
      presence_of_exactlyOne_single he (by decide) (by decide) rfl
    have q0 : (B 0 0 0).end_ = (B 0 0 0).start + 10 :=
      hp 0 (by decide) 0 (by decide) 0 (by decide) p0
    have q1 : (B 1 0 0).end_ = (B 1 0 0).start + 2 :=
      hp 1 (by decide) 0 (by decide) 0 (by decide) p1
    have q2 : (B 1 1 0).end_ = (B 1 1 0).start + 8 :=
      hp 1 (by decide) 1 (by decide) 0 (by decide) p2
    have r1 : (B 1 0 0).end_ ≤ (B 1 1 0).start :=
      hprec 1 (by decide) 1 (by decide) "B" (by decide) (by decide) 0 (by decide)
        0 (by decide)
    have s1 : (B 0 0 0).end_ ≤ (B 1 0 0).start ∨ (B 1 0 0).end_ ≤ (B 0 0 0).start :=
      hov (0, 0, 0) (by decide) (1, 0, 0) (by decide) (by decide) rfl p0 p1
    rw [objVal_jobsMono, objVal_jobsMono]
    have v0 : (assignMono10 0 0 0).end_ = 12 := rfl
    have v1 : (assignMono10 1 1 0).end_ = 10 := rfl
    rw [v0, v1]
    have hm := le_max_left (B 0 0 0).end_ (B 1 1 0).end_
    have hm2 := le_max_right (B 0 0 0).end_ (B 1 1 0).end_
    have hmx : (max 12 10 : Nat) = 12 := rfl
    rw [hmx]
    rcases s1 with s1 | s1 <;> omega

/-! ### Characterization of the decoded schedule -/

theorem mem_decodeOps {jobs : List Job} {groups : List MachineGroup} {A : Assignment}
    {s : ScheduledOperation} :
    s ∈ decodeOps jobs groups A ↔
      ∃ ji < jobs.length, ∃ oi < (jobAt jobs ji).operation_list.length,
        decodeOp groups A ji (jobAt jobs ji) oi = some s := by
  unfold decodeOps decodeOpsJob
  rw [List.mem_flatMap]
  constructor
  · rintro ⟨ji, hji, hin⟩
    rw [List.mem_range] at hji
    rw [List.mem_flatMap] at hin
    obtain ⟨oi, hoi, hs⟩ := hin
    rw [List.mem_range] at hoi
    refine ⟨ji, hji, oi, hoi, ?_⟩
    cases hv : decodeOp groups A ji (jobAt jobs ji) oi with
    | none => rw [hv] at hs; cases hs
    | some t => rw [hv] at hs; simp at hs; rw [hs]
  · rintro ⟨ji, hji, oi, hoi, hs⟩
    refine ⟨ji, List.mem_range.mpr hji, ?_⟩
    rw [List.mem_flatMap]
    refine ⟨oi, List.mem_range.mpr hoi, ?_⟩
    rw [hs]
    simp

theorem decodeOp_eq_some {groups : List MachineGroup} {A : Assignment} {ji : Nat}
    {j : Job} {oi : Nat} {s : ScheduledOperation}
    (h : decodeOp groups A ji j oi = some s) :
    ∃ c < opQty groups (opAt j (lookupPos j (opAt j oi).id)),
      (A ji (lookupPos j (opAt j oi).id) c).presence = true ∧
      s = ⟨j.id, (opAt j oi).id, instanceLabel (opAt j oi).machine_group_id c,
        (A ji (lookupPos j (opAt j oi).id) c).start,
        (A ji (lookupPos j (opAt j oi).id) c).end_⟩ := by
  unfold decodeOp at h
  cases hf : (List.range (opQty groups (opAt j (lookupPos j (opAt j oi).id)))).find?
      (fun c => (A ji (lookupPos j (opAt j oi).id) c).presence) with
  | none => rw [hf] at h; cases h
  | some c =>
    rw [hf] at h
    have hc := List.mem_of_find?_eq_some hf
    rw [List.mem_range] at hc
    have hp := List.find?_some hf
    refine ⟨c, hc, hp, ?_⟩
    injection h with h
    rw [← h]

theorem exists_of_countP_one {l : List Nat} {p : Nat → Bool} (h : l.countP p = 1) :
    ∃ x ∈ l, p x = true := by
  by_contra hc
  push_neg at hc
  have h0 : l.countP p = 0 := by
    rw [List.countP_eq_zero]
    intro a ha
    exact hc a ha
  omega

theorem decodeOp_isSome {jobs : List Job} {groups : List MachineGroup} {A : Assignment}
    (he : ExactlyOneOk jobs groups A) {ji oi : Nat} (hji : ji < jobs.length)
    (hnd : ((jobAt jobs ji).operation_list.map (fun op => op.id)).Nodup)
    (hoi : oi < (jobAt jobs ji).operation_list.length) :
    ∃ s, decodeOp groups A ji (jobAt jobs ji) oi = some s := by
  have e := he ji hji oi hoi
  obtain ⟨c, hc, hp⟩ := exists_of_countP_one e
  rw [List.mem_range] at hc
  unfold decodeOp
  rw [lookupPos_self hnd hoi]
  cases hf : (List.range (opQty groups (opAt (jobAt jobs ji) oi))).find?
      (fun c => (A ji oi c).presence) with
  | none =>
    rw [List.find?_eq_none] at hf
    exact absurd hp (hf c (List.mem_range.mpr hc))
  | some c2 => exact ⟨_, rfl⟩

/-! ### Claims C1, C2, C8, C10 -/

/-- C1: the single scalar objective minimized by `solve_jssp` equals
`(horizon + 1) * primary_sum + 1 * makespan`, and the weighting guarantees
lexicographic dominance: between two feasible assignments, a strictly
smaller priority-weighted completion sum forces a strictly smaller combined
objective, regardless of the two makespans. -/
theorem claim_C1 (jobs : List Job) (groups : List MachineGroup) (A1 A2 : Assignment)
    (h1 : Feasible jobs groups A1) (h2 : Feasible jobs groups A2)
    (hP : primaryVal jobs groups A1 < primaryVal jobs groups A2) :
    objVal jobs groups A1 =
      (horizon jobs + 1) * primaryVal jobs groups A1 + 1 * makespanVal jobs groups A1 ∧
    objVal jobs groups A1 < objVal jobs groups A2 := by
  constructor
  · unfold objVal; ring
  · exact objVal_lt_of_primary_lt h1 hP

/-- Witness for C1 at a concrete two-job input: running the short job first
gives a strictly smaller primary sum, hence a strictly smaller combined
objective. -/
theorem claim_C1_witness :
    Feasible jobsTwo [groupG] assignTwoA ∧ Feasible jobsTwo [groupG] assignTwoB ∧
    primaryVal jobsTwo [groupG] assignTwoA < primaryVal jobsTwo [groupG] assignTwoB ∧
    objVal jobsTwo [groupG] assignTwoA < objVal jobsTwo [groupG] assignTwoB :=
  ⟨by decide, by decide, by decide,
    (claim_C1 jobsTwo [groupG] assignTwoA assignTwoB (by decide) (by decide) (by decide)).2⟩

/-- C2 counterexample: an input whose only machine group has quantity 0 is
answered by the pre-model `if not all_machine_instances: return None` check,
not by the exactly-one constraint of the (never built) model — refuting the
claim that the infeasible outcome always arises from the exactly-one
constraint rather than a separate pre-model error path. -/
theorem claim_C2_counterexample :
    (opAt (jobAt jobsZeroQty 0) 0).machine_group_id = "G" ∧
    findGroup groupsZeroQty "G" = some ⟨"G", "g", 0⟩ ∧
    solveJsspPath jobsZeroQty groupsZeroQty = SolvePath.noMachines := by decide

/-- C2 (amended): if some operation references a machine group of quantity
0, no assignment is feasible (the exactly-one constraint over the empty
candidate list is unsatisfiable) and `solve_jssp` never returns a schedule;
however, the pre-model no-machine-instances check fires exactly when every
group has quantity 0, and in that case the no-schedule outcome is decided
before the model is built. -/
theorem claim_C2_amended (jobs : List Job) (groups : List MachineGroup)
    (j : Job) (op : Operation) (g : MachineGroup)
    (hj : j ∈ jobs) (hop : op ∈ j.operation_list)
    (hg : findGroup groups op.machine_group_id = some g) (hq : g.quantity = 0) :
    (∀ A, ¬ Feasible jobs groups A) ∧ (∀ sched, ¬ Returns jobs groups sched) ∧
    (solveJsspPath jobs groups = SolvePath.noMachines ↔ allMachineInstances groups = []) := by
  have hnf : ∀ A, ¬ Feasible jobs groups A := by
    intro A hF
    obtain ⟨⟨hd, hp, he, hprec, hov⟩, hobj⟩ := hF
    obtain ⟨ji, hji, hjeq⟩ := List.mem_iff_getElem.mp hj
    obtain ⟨oi, hoi, hoeq⟩ := List.mem_iff_getElem.mp hop
    have hja : jobAt jobs ji = j := by
      unfold jobAt; rw [List.getD_eq_getElem _ _ hji]; exact hjeq
    have hoa : opAt (jobAt jobs ji) oi = op := by
      rw [hja]; unfold opAt; rw [List.getD_eq_getElem _ _ hoi]; exact hoeq
    have hq0 : opQty groups op = 0 := by
      unfold opQty
      rw [hg]
      simpa using hq
    have e := he ji hji oi (by rw [hja]; exact hoi)
    rw [hoa, hq0] at e
    simp at e
  refine ⟨hnf, ?_, ?_⟩
  · rintro sched ⟨hpath, A, hF, _⟩
    exact hnf A hF
  · constructor
    · intro h
      by_cases h1 : allMachineInstances groups = []
      · exact h1
      · exfalso
        unfold solveJsspPath at h
        rw [if_neg h1] at h
        by_cases h2 : anyUnknownGroup jobs groups <;> simp [h2] at h
    · intro h
      unfold solveJsspPath
      rw [if_pos h]

/-- Witness for the amended C2 at the concrete zero-quantity input. -/
theorem claim_C2_amended_witness :
    (¬ Feasible jobsZeroQty groupsZeroQty assignZeroDur) ∧
    (solveJsspPath jobsZeroQty groupsZeroQty = SolvePath.noMachines ↔
      allMachineInstances groupsZeroQty = []) := by
  have h := claim_C2_amended jobsZeroQty groupsZeroQty
    ⟨"J", "j", 1, [⟨"O", "G", 1, []⟩]⟩ ⟨"O", "G", 1, []⟩ ⟨"G", "g", 0⟩
    (by decide) (by decide) (by decide) rfl
  exact ⟨h.1 assignZeroDur, h.2.2⟩

/-- C8: with an empty job list or an empty machine-group list, the
`_tool_solve_schedule` pipeline returns the explicit nothing-to-solve error
without invoking the solver engine (the result does not depend on the
engine at all). -/
theorem claim_C8 (jobs : List Job) (groups : List MachineGroup)
    (engine : List Job → List MachineGroup → Option Schedule)
    (h : jobs = [] ∨ groups = []) :
    toolSolveSchedule jobs groups engine = ToolSolveResult.nothingToSolve := by
  unfold toolSolveSchedule
  rcases h with h | h <;> subst h <;> simp

/-- Witness for C8 with an empty job list. -/
theorem claim_C8_witness :
    (([] : List Job) = [] ∨ groupsSix = []) ∧
    toolSolveSchedule [] groupsSix (fun _ _ => none) = ToolSolveResult.nothingToSolve :=
  ⟨Or.inl rfl, claim_C8 [] groupsSix (fun _ _ => none) (Or.inl rfl)⟩

/-- C10: the `machine_utilization` map of a returned schedule has a key for
a machine instance exactly when at least one scheduled operation is assigned
to it; idle instances are absent rather than reported as 0. -/
theorem claim_C10 (jobs : List Job) (groups : List MachineGroup) (sched : Schedule)
    (hret : Returns jobs groups sched) (label : String) :
    (∃ q, (label, q) ∈ sched.machine_utilization) ↔
      (∃ s ∈ sched.scheduled_operations, s.machine_instance_id = label) := by
  obtain ⟨hpath, A, hF, hdec⟩ := hret
  subst hdec
  show (∃ q, (label, q) ∈ utilOf (decodeOps jobs groups A) (makespanVal jobs groups A)) ↔
    (∃ s ∈ decodeOps jobs groups A, s.machine_instance_id = label)
  unfold utilOf labelsOf
  constructor
  · rintro ⟨q, hq⟩
    rw [List.mem_map] at hq
    obtain ⟨l, hl, heq⟩ := hq
    have hleq : l = label := congrArg Prod.fst heq
    subst hleq
    rw [List.mem_dedup, List.mem_map] at hl
    obtain ⟨s, hs, hsl⟩ := hl
    exact ⟨s, hs, hsl⟩
  · rintro ⟨s, hs, hsl⟩
    refine ⟨(if 0 < makespanVal jobs groups A then
        ((busyOf (decodeOps jobs groups A) label : ℚ) / (makespanVal jobs groups A : ℚ))
      else 0), ?_⟩
    rw [List.mem_map]
    refine ⟨label, ?_, rfl⟩
    rw [List.mem_dedup, List.mem_map]
    exact ⟨s, hs, hsl⟩

/-- Witness for C10 at a concrete returned schedule and its busy label. -/
theorem claim_C10_witness :
    Returns jobsSix groupsSix (decodeSchedule jobsSix groupsSix assignSix) ∧
    ((∃ q, ("G_0", q) ∈ (decodeSchedule jobsSix groupsSix assignSix).machine_utilization) ↔
      (∃ s ∈ (decodeSchedule jobsSix groupsSix assignSix).scheduled_operations,
        s.machine_instance_id = "G_0")) := by
  have hret : Returns jobsSix groupsSix (decodeSchedule jobsSix groupsSix assignSix) :=
    ⟨by decide, assignSix, by decide, rfl⟩
  exact ⟨hret, claim_C10 jobsSix groupsSix _ hret "G_0"⟩

theorem jobAt_mem {jobs : List Job} {ji : Nat} (h : ji < jobs.length) :
    jobAt jobs ji ∈ jobs := by
  unfold jobAt
  rw [List.getD_eq_getElem _ _ h]
  exact List.getElem_mem h

theorem opAt_mem {j : Job} {oi : Nat} (h : oi < j.operation_list.length) :
    opAt j oi ∈ j.operation_list := by
  unfold opAt
  rw [List.getD_eq_getElem _ _ h]
  exact List.getElem_mem h

/-! ### Membership in unit positions and per-job decoding -/

theorem mem_unitPositions {jobs : List Job} {groups : List MachineGroup}
    {ji oi c : Nat} :
    (ji, oi, c) ∈ unitPositions jobs groups ↔
      ji < jobs.length ∧ oi < (jobAt jobs ji).operation_list.length ∧
        c < opQty groups (opAt (jobAt jobs ji) oi) := by
  unfold unitPositions
  rw [List.mem_flatMap]
  constructor
  · rintro ⟨ji1, hji1, hin⟩
    rw [List.mem_range] at hji1
    rw [List.mem_flatMap] at hin
    obtain ⟨oi1, hoi1, hin2⟩ := hin
    rw [List.mem_range] at hoi1
    rw [List.mem_map] at hin2
    obtain ⟨c1, hc1, heq⟩ := hin2
    rw [List.mem_range] at hc1
    obtain ⟨rfl, rfl, rfl⟩ : ji1 = ji ∧ oi1 = oi ∧ c1 = c := by
      refine ⟨congrArg Prod.fst heq, ?_, ?_⟩
      · have := congrArg Prod.snd heq
        exact congrArg Prod.fst this
      · have := congrArg Prod.snd heq
        exact congrArg Prod.snd this
    exact ⟨hji1, hoi1, hc1⟩
  · rintro ⟨h1, h2, h3⟩
    refine ⟨ji, List.mem_range.mpr h1, ?_⟩
    rw [List.mem_flatMap]
    refine ⟨oi, List.mem_range.mpr h2, ?_⟩
    rw [List.mem_map]
    exact ⟨c, List.mem_range.mpr h3, rfl⟩

theorem mem_decodeOpsJob {groups : List MachineGroup} {A : Assignment} {ji : Nat}
    {j : Job} {s : ScheduledOperation} :
    s ∈ decodeOpsJob groups A ji j ↔
      ∃ oi < j.operation_list.length, decodeOp groups A ji j oi = some s := by
  unfold decodeOpsJob
  rw [List.mem_flatMap]
  constructor
  · rintro ⟨oi, hoi, hs⟩
    rw [List.mem_range] at hoi
    refine ⟨oi, hoi, ?_⟩
    cases hv : decodeOp groups A ji j oi with
    | none => rw [hv] at hs; cases hs
    | some t => rw [hv] at hs; simp at hs; rw [hs]
  · rintro ⟨oi, hoi, hs⟩
    refine ⟨oi, List.mem_range.mpr hoi, ?_⟩
    rw [hs]
    simp

/-! ### Claims C3 and C5 -/

/-- C3: in every schedule returned by `solve_jssp` (with the data model's
unique ids), each scheduled operation starts no earlier than the end of
every one of its predecessors within the same job. -/
theorem claim_C3 (jobs : List Job) (groups : List MachineGroup) (sched : Schedule)
    (hret : Returns jobs groups sched) (huj : UniqueJobIds jobs) (huo : UniqueOpIds jobs)
    (ji : Nat) (hji : ji < jobs.length) (oi : Nat)
    (hoi : oi < (jobAt jobs ji).operation_list.length)
    (pid : String) (hpid : pid ∈ (opAt (jobAt jobs ji) oi).predecessors)
    (s t : ScheduledOperation)
    (hs : s ∈ sched.scheduled_operations) (ht : t ∈ sched.scheduled_operations)
    (hsj : s.job_id = (jobAt jobs ji).id)
    (hso : s.operation_id = (opAt (jobAt jobs ji) oi).id)
    (htj : t.job_id = (jobAt jobs ji).id) (hto : t.operation_id = pid) :
    t.end_time ≤ s.start_time := by
  obtain ⟨hpath, A, hF, hdec⟩ := hret
  subst hdec
  have hs2 : s ∈ decodeOps jobs groups A := hs
  have ht2 : t ∈ decodeOps jobs groups A := ht
  obtain ⟨ji1, hji1, oi1, hoi1, hdec1⟩ := mem_decodeOps.mp hs2
  obtain ⟨ji2, hji2, oi2, hoi2, hdec2⟩ := mem_decodeOps.mp ht2
  have hnd1 : ((jobAt jobs ji1).operation_list.map (fun op => op.id)).Nodup :=
    huo _ (jobAt_mem hji1)
  have hnd2 : ((jobAt jobs ji2).operation_list.map (fun op => op.id)).Nodup :=
    huo _ (jobAt_mem hji2)
  obtain ⟨c1, hc1, hp1, hseq⟩ := decodeOp_eq_some hdec1
  obtain ⟨c2, hc2, hp2, hteq⟩ := decodeOp_eq_some hdec2
  rw [lookupPos_self hnd1 hoi1] at hc1 hp1 hseq
  rw [lookupPos_self hnd2 hoi2] at hc2 hp2 hteq
  have hjid1 : (jobAt jobs ji1).id = (jobAt jobs ji).id := by rw [hseq] at hsj; exact hsj
  have hje1 : ji1 = ji := jobPos_inj huj hji1 hji hjid1
  subst hje1
  have hjid2 : (jobAt jobs ji2).id = (jobAt jobs ji1).id := by rw [hteq] at htj; exact htj
  have hje2 : ji2 = ji1 := jobPos_inj huj hji2 hji hjid2
  subst hje2
  have hoid1 : (opAt (jobAt jobs ji2) oi1).id = (opAt (jobAt jobs ji2) oi).id := by
    rw [hseq] at hso; exact hso
  have hoe1 : oi1 = oi := opPos_inj hnd1 hoi1 hoi hoid1
  subst hoe1
  have hpid2 : (opAt (jobAt jobs ji2) oi2).id = pid := by rw [hteq] at hto; exact hto
  have hmem : pid ∈ (jobAt jobs ji2).operation_list.map (fun op => op.id) := by
    rw [List.mem_map]
    exact ⟨opAt (jobAt jobs ji2) oi2, opAt_mem hoi2, hpid2⟩
  have hprec := hF.1.2.2.2.1 ji2 hji oi1 hoi pid hpid hmem
  rw [lookupPos_self hnd1 hoi] at hprec
  have hlp2 : lookupPos (jobAt jobs ji2) pid = oi2 := by
    rw [← hpid2]
    exact lookupPos_self hnd2 hoi2
  rw [hlp2] at hprec
  have key := hprec c1 hc1 c2 hc2
  rw [hseq, hteq]
  exact key

/-- C5: in every schedule returned by `solve_jssp` (with the data model's
unique ids), any two distinct scheduled operations assigned to the same
machine instance occupy disjoint time intervals. -/
theorem claim_C5 (jobs : List Job) (groups : List MachineGroup) (sched : Schedule)
    (hret : Returns jobs groups sched) (huj : UniqueJobIds jobs) (huo : UniqueOpIds jobs)
    (s t : ScheduledOperation)
    (hs : s ∈ sched.scheduled_operations) (ht : t ∈ sched.scheduled_operations)
    (hne : s ≠ t) (hlab : s.machine_instance_id = t.machine_instance_id) :
    s.end_time ≤ t.start_time ∨ t.end_time ≤ s.start_time := by
  obtain ⟨hpath, A, hF, hdec⟩ := hret
  subst hdec
  have hs2 : s ∈ decodeOps jobs groups A := hs
  have ht2 : t ∈ decodeOps jobs groups A := ht
  obtain ⟨ji1, hji1, oi1, hoi1, hdec1⟩ := mem_decodeOps.mp hs2
  obtain ⟨ji2, hji2, oi2, hoi2, hdec2⟩ := mem_decodeOps.mp ht2
  have hnd1 : ((jobAt jobs ji1).operation_list.map (fun op => op.id)).Nodup :=
    huo _ (jobAt_mem hji1)
  have hnd2 : ((jobAt jobs ji2).operation_list.map (fun op => op.id)).Nodup :=
    huo _ (jobAt_mem hji2)
  obtain ⟨c1, hc1, hp1, hseq⟩ := decodeOp_eq_some hdec1
  obtain ⟨c2, hc2, hp2, hteq⟩ := decodeOp_eq_some hdec2
  rw [lookupPos_self hnd1 hoi1] at hc1 hp1 hseq
  rw [lookupPos_self hnd2 hoi2] at hc2 hp2 hteq
  by_cases hpos : (ji1, oi1, c1) = (ji2, oi2, c2)
  · exfalso
    apply hne
    have e1 : ji1 = ji2 := congrArg Prod.fst hpos
    have e2 : oi1 = oi2 := congrArg Prod.fst (congrArg Prod.snd hpos)
    have e3 : c1 = c2 := congrArg Prod.snd (congrArg Prod.snd hpos)
    subst e1; subst e2; subst e3
    rw [hseq, hteq]
  · have hlab2 : unitLabel jobs (ji1, oi1, c1) = unitLabel jobs (ji2, oi2, c2) := by
      unfold unitLabel
      rw [hseq] at hlab
      rw [hteq] at hlab
      exact hlab
    have hov := hF.1.2.2.2.2 (ji1, oi1, c1) (mem_unitPositions.mpr ⟨hji1, hoi1, hc1⟩)
      (ji2, oi2, c2) (mem_unitPositions.mpr ⟨hji2, hoi2, hc2⟩) hpos hlab2 hp1 hp2
    rw [hseq, hteq]
    exact hov

/-! ### Counting decoded operations (C4) -/

theorem countP_range_flatMap_zero {α : Type} (f : Nat → List α) (p : α → Bool) (n : Nat)
    (h0 : ∀ i < n, (f i).countP p = 0) :
    ((List.range n).flatMap f).countP p = 0 := by
  induction n with
  | zero => rfl
  | succ m ih =>
    rw [List.range_succ, List.flatMap_append, List.countP_append,
      ih (fun i hi => h0 i (by omega))]
    have h2 : ([m].flatMap f).countP p = (f m).countP p := by simp
    rw [h2, h0 m (by omega)]

theorem countP_range_flatMap_one {α : Type} (f : Nat → List α) (p : α → Bool) {n k : Nat}
    (hk : k < n) (h1 : (f k).countP p = 1)
    (h0 : ∀ i < n, i ≠ k → (f i).countP p = 0) :
    ((List.range n).flatMap f).countP p = 1 := by
  induction n with
  | zero => omega
  | succ m ih =>
    rw [List.range_succ, List.flatMap_append, List.countP_append]
    have h2 : ([m].flatMap f).countP p = (f m).countP p := by simp
    rcases Nat.lt_or_ge k m with hkm | hkm
    · rw [ih hkm (fun i hi hne => h0 i (by omega) hne), h2, h0 m (by omega) (by omega)]
    · have hkm2 : k = m := by omega
      subst hkm2
      rw [countP_range_flatMap_zero f p k (fun i hi => h0 i (by omega) (by omega)), h2, h1]

/-- C4: in every schedule returned by `solve_jssp` (with the data model's
unique ids), every operation of every input job appears exactly once among
the scheduled operations, and every scheduled operation corresponds to an
input operation. -/
theorem claim_C4 (jobs : List Job) (groups : List MachineGroup) (sched : Schedule)
    (hret : Returns jobs groups sched) (huj : UniqueJobIds jobs) (huo : UniqueOpIds jobs) :
    (∀ ji < jobs.length, ∀ oi < (jobAt jobs ji).operation_list.length,
      sched.scheduled_operations.countP (fun s =>
        s.job_id == (jobAt jobs ji).id &&
          s.operation_id == (opAt (jobAt jobs ji) oi).id) = 1) ∧
    ∀ s ∈ sched.scheduled_operations, ∃ ji < jobs.length,
      ∃ oi < (jobAt jobs ji).operation_list.length,
        s.job_id = (jobAt jobs ji).id ∧ s.operation_id = (opAt (jobAt jobs ji) oi).id := by
  obtain ⟨hpath, A, hF, hdec⟩ := hret
  subst hdec
  constructor
  · intro ji hji oi hoi
    have hnd : ((jobAt jobs ji).operation_list.map (fun op => op.id)).Nodup :=
      huo _ (jobAt_mem hji)
    show (decodeOps jobs groups A).countP _ = 1
    unfold decodeOps
    apply countP_range_flatMap_one _ _ hji
    · unfold decodeOpsJob
      apply countP_range_flatMap_one _ _ hoi
      · obtain ⟨s, hs⟩ := decodeOp_isSome hF.1.2.2.1 hji hnd hoi
        rw [hs]
        obtain ⟨c, hc, hp, hseq⟩ := decodeOp_eq_some hs
        have hps : (s.job_id == (jobAt jobs ji).id &&
            s.operation_id == (opAt (jobAt jobs ji) oi).id) = true := by
          rw [hseq]
          simp
        simp only [Option.toList, List.countP_cons, List.countP_nil, hps]
        rfl
      · intro oi2 hoi2 hne
        cases hv : decodeOp groups A ji (jobAt jobs ji) oi2 with
        | none => simp
        | some t =>
          obtain ⟨c, hc, hp2, hteq⟩ := decodeOp_eq_some hv
          have hpt : (t.job_id == (jobAt jobs ji).id &&
              t.operation_id == (opAt (jobAt jobs ji) oi).id) = false := by
            rw [hteq]
            simp only [Bool.and_eq_false_iff, beq_eq_false_iff_ne, ne_eq]
            right
            intro hid
            exact hne (opPos_inj hnd hoi2 hoi hid)
          simp only [Option.toList, List.countP_cons, List.countP_nil, hpt]
          rfl
    · intro ji2 hji2 hne
      rw [List.countP_eq_zero]
      intro s hsmem
      obtain ⟨oi2, hoi2, hdec2⟩ := mem_decodeOpsJob.mp hsmem
      obtain ⟨c, hc, hp2, hseq⟩ := decodeOp_eq_some hdec2
      rw [hseq]
      simp only [Bool.and_eq_true, beq_iff_eq, not_and]
      intro hid _
      exact hne (jobPos_inj huj hji2 hji hid)
  · intro s hs
    obtain ⟨ji, hji, oi, hoi, hdec1⟩ := mem_decodeOps.mp hs
    obtain ⟨c, hc, hp, hseq⟩ := decodeOp_eq_some hdec1
    exact ⟨ji, hji, oi, hoi, by rw [hseq], by rw [hseq]⟩

/-! ### Witnesses for C3, C4, C5 -/

/-- Witness for C3: in the decoded schedule of the chain instance, operation
`E` (predecessor `B`) starts at 11, exactly when `B` ends. -/
theorem claim_C3_witness :
    Returns (jobsMono 9) groupsMono (decodeSchedule (jobsMono 9) groupsMono assignMono9) ∧
    UniqueJobIds (jobsMono 9) ∧ UniqueOpIds (jobsMono 9) ∧
    (⟨"JL", "B", "G1_0", 9, 11⟩ : ScheduledOperation).end_time ≤
      (⟨"JL", "E", "G2_0", 11, 19⟩ : ScheduledOperation).start_time := by
  have hret : Returns (jobsMono 9) groupsMono
      (decodeSchedule (jobsMono 9) groupsMono assignMono9) :=
    ⟨by decide, assignMono9, by decide, rfl⟩
  refine ⟨hret, by decide, by decide, ?_⟩
  exact claim_C3 (jobsMono 9) groupsMono _ hret (by decide) (by decide)
    1 (by decide) 1 (by decide) "B" (by decide)
    ⟨"JL", "E", "G2_0", 11, 19⟩ ⟨"JL", "B", "G1_0", 9, 11⟩
    (by decide) (by decide) (by decide) (by decide) (by decide) (by decide)

/-- Witness for C4 at the two-operation instance: each of the two input
operations appears exactly once in the decoded schedule. -/
theorem claim_C4_witness :
    Returns jobsSix groupsSix (decodeSchedule jobsSix groupsSix assignSix) ∧
    UniqueJobIds jobsSix ∧ UniqueOpIds jobsSix ∧
    (decodeSchedule jobsSix groupsSix assignSix).scheduled_operations.countP
      (fun s => s.job_id == "J" && s.operation_id == "A") = 1 := by
  have hret : Returns jobsSix groupsSix (decodeSchedule jobsSix groupsSix assignSix) :=
    ⟨by decide, assignSix, by decide, rfl⟩
  refine ⟨hret, by decide, by decide, ?_⟩
  exact (claim_C4 jobsSix groupsSix _ hret (by decide) (by decide)).1 0 (by decide)
    0 (by decide)

/-- Witness for C5: the two decoded operations on instance `G_0` of the
two-operation instance occupy disjoint intervals. -/
theorem claim_C5_witness :
    Returns jobsSix groupsSix (decodeSchedule jobsSix groupsSix assignSix) ∧
    ((⟨"J", "A", "G_0", 1, 6⟩ : ScheduledOperation).end_time ≤
        (⟨"J", "B", "G_0", 0, 1⟩ : ScheduledOperation).start_time ∨
      (⟨"J", "B", "G_0", 0, 1⟩ : ScheduledOperation).end_time ≤
        (⟨"J", "A", "G_0", 1, 6⟩ : ScheduledOperation).start_time) := by
  have hret : Returns jobsSix groupsSix (decodeSchedule jobsSix groupsSix assignSix) :=
    ⟨by decide, assignSix, by decide, rfl⟩
  refine ⟨hret, ?_⟩
  exact claim_C5 jobsSix groupsSix _ hret (by decide) (by decide)
    ⟨"J", "A", "G_0", 1, 6⟩ ⟨"J", "B", "G_0", 0, 1⟩
    (by decide) (by decide) (by decide) (by decide)

/-! ### Claim C6 -/

/-- C6 (amended): the `makespan` field of a returned schedule is the value
of the makespan variable — the maximum over jobs of the maximum end among
the candidate units of the job's last listed operation (0 with no jobs) —
which bounds the end of every scheduled last-listed operation but, as the
counterexample shows, not necessarily the ends of earlier-listed
operations; `machine_utilization` is a pure function of the scheduled
operations and the makespan value, and `average_flow_time` of the scheduled
operations and the number of jobs. -/
theorem claim_C6_amended (jobs : List Job) (groups : List MachineGroup) (A : Assignment)
    (hF : Feasible jobs groups A) (huj : UniqueJobIds jobs) (huo : UniqueOpIds jobs) :
    (decodeSchedule jobs groups A).makespan = makespanVal jobs groups A ∧
    (∀ ji < jobs.length, ∀ s ∈ (decodeSchedule jobs groups A).scheduled_operations,
      0 < (jobAt jobs ji).operation_list.length →
      s.job_id = (jobAt jobs ji).id →
      s.operation_id =
        (opAt (jobAt jobs ji) ((jobAt jobs ji).operation_list.length - 1)).id →
      s.end_time ≤ (decodeSchedule jobs groups A).makespan) ∧
    (decodeSchedule jobs groups A).machine_utilization =
      utilOf (decodeSchedule jobs groups A).scheduled_operations
        (decodeSchedule jobs groups A).makespan ∧
    (decodeSchedule jobs groups A).average_flow_time =
      avgOf (decodeSchedule jobs groups A).scheduled_operations jobs.length := by
  refine ⟨rfl, ?_, rfl, rfl⟩
  intro ji hji s hs hpos hsj hso
  have hs2 : s ∈ decodeOps jobs groups A := hs
  obtain ⟨ji1, hji1, oi1, hoi1, hdec1⟩ := mem_decodeOps.mp hs2
  have hnd1 : ((jobAt jobs ji1).operation_list.map (fun op => op.id)).Nodup :=
    huo _ (jobAt_mem hji1)
  obtain ⟨c, hc, hp, hseq⟩ := decodeOp_eq_some hdec1
  rw [lookupPos_self hnd1 hoi1] at hc hp hseq
  have hjid : (jobAt jobs ji1).id = (jobAt jobs ji).id := by rw [hseq] at hsj; exact hsj
  have hje : ji1 = ji := jobPos_inj huj hji1 hji hjid
  subst hje
  have hlast : (jobAt jobs ji1).operation_list.length - 1 <
      (jobAt jobs ji1).operation_list.length := by omega
  have hoid : (opAt (jobAt jobs ji1) oi1).id =
      (opAt (jobAt jobs ji1) ((jobAt jobs ji1).operation_list.length - 1)).id := by
    rw [hseq] at hso; exact hso
  have hoe : oi1 = (jobAt jobs ji1).operation_list.length - 1 :=
    opPos_inj hnd1 hoi1 hlast hoid
  subst hoe
  have hse : s.end_time = (A ji1 ((jobAt jobs ji1).operation_list.length - 1) c).end_ := by
    rw [hseq]
  have hlp : lastOpPos (jobAt jobs ji1) = (jobAt jobs ji1).operation_list.length - 1 := by
    unfold lastOpPos
    exact lookupPos_self hnd1 hlast
  have hje2 : s.end_time ≤ jobEndVal groups A ji1 (jobAt jobs ji1) := by
    rw [hse]
    unfold jobEndVal
    rw [hlp]
    apply le_maxList
    rw [List.mem_map]
    exact ⟨c, List.mem_range.mpr hc, rfl⟩
  have hmk : jobEndVal groups A ji1 (jobAt jobs ji1) ≤ makespanVal jobs groups A := by
    unfold makespanVal
    apply le_maxList
    rw [List.mem_map]
    exact ⟨ji1, mem_jobsWithOps.mpr ⟨hji1, hpos⟩, rfl⟩
  exact le_trans hje2 hmk

/-- C6 counterexample: for the input with operations `A` (duration 5) and
`B` (duration 1, last in the list, no precedence) on one machine, the
optimal returned schedule has `makespan` field 1 while the maximum
`end_time` over its scheduled operations is 6 — refuting
`makespan = max end_time over all scheduled operations`. -/
theorem claim_C6_counterexample :
    Returns jobsSix groupsSix (decodeSchedule jobsSix groupsSix assignSix) ∧
    (∀ B, Feasible jobsSix groupsSix B →
      objVal jobsSix groupsSix assignSix ≤ objVal jobsSix groupsSix B) ∧
    (decodeSchedule jobsSix groupsSix assignSix).makespan = 1 ∧
    maxList ((decodeSchedule jobsSix groupsSix assignSix).scheduled_operations.map
      (fun s => s.end_time)) = 6 := by
  refine ⟨⟨by decide, assignSix, by decide, rfl⟩, ?_, by decide, by decide⟩
  intro B hB
  obtain ⟨⟨hd, hp, he, hprec, hov⟩, hobj⟩ := hB
  have p1 : (B 0 1 0).presence = true :=
    presence_of_exactlyOne_single he (by decide) (by decide) rfl
  have q1 : (B 0 1 0).end_ = (B 0 1 0).start + 1 :=
    hp 0 (by decide) 1 (by decide) 0 (by decide) p1
  have hA : objVal jobsSix groupsSix assignSix = 8 := by decide
  rw [hA]
  have hform : objVal jobsSix groupsSix B =
      7 * (1 * max (B 0 1 0).end_ 0 + 0) + max (max (B 0 1 0).end_ 0) 0 := rfl
  rw [hform]
  simp only [Nat.max_zero, Nat.one_mul, Nat.add_zero]
  omega

/-- Witness for the amended C6 at a concrete feasible assignment. -/
theorem claim_C6_amended_witness :
    Feasible jobsSix groupsSix assignSix ∧ UniqueJobIds jobsSix ∧ UniqueOpIds jobsSix ∧
    (decodeSchedule jobsSix groupsSix assignSix).makespan =
      makespanVal jobsSix groupsSix assignSix :=
  ⟨by decide, by decide, by decide,
    (claim_C6_amended jobsSix groupsSix assignSix (by decide) (by decide) (by decide)).1⟩

/-! ### Claim C7 -/

/-- C7 (amended): `validate_operations` accepts exactly the non-empty
payloads whose every entry carries a known `machine_group_id` and a positive
`processing_time`; unknown group references and non-positive durations are
rejected before any model is built, but operation ids and job ids are not
inspected, so duplicate ids are not rejected by validation. -/
theorem claim_C7_amended (ops : List OpData) (validIds : List String) :
    (validateOperations ops validIds).1 = true ↔
      (ops ≠ [] ∧ ∀ op ∈ ops,
        (∃ g, op.machine_group_id = some g ∧ g ∈ validIds) ∧
        (∃ t, op.processing_time = some t ∧ 0 < t)) := by
  have groupOk_iff : ∀ op, opGroupOk validIds op = true ↔
      ∃ g, op.machine_group_id = some g ∧ g ∈ validIds := by
    intro op
    unfold opGroupOk
    cases hmg : op.machine_group_id with
    | none => simp
    | some g =>
      simp only [Option.some.injEq]
      constructor
      · intro h
        exact ⟨g, rfl, List.elem_iff.mp h⟩
      · rintro ⟨g2, rfl, hm⟩
        exact List.elem_iff.mpr hm
  have timeOk_iff : ∀ op, opTimeOk op = true ↔
      ∃ t, op.processing_time = some t ∧ 0 < t := by
    intro op
    unfold opTimeOk
    cases hpt : op.processing_time with
    | none => simp
    | some t0 =>
      simp only [Option.some.injEq, decide_eq_true_eq]
      constructor
      · intro h
        exact ⟨t0, rfl, h⟩
      · rintro ⟨t2, rfl, hpos⟩
        exact hpos
  unfold validateOperations
  cases ops with
  | nil => simp
  | cons o rest =>
    cases h1 : (o :: rest).find? (fun op => !opGroupOk validIds op) with
    | some w =>
      simp only [h1]
      constructor
      · intro hc
        exact Bool.noConfusion hc
      · rintro ⟨hne, hall⟩
        have hw := List.find?_some h1
        have hwm := List.mem_of_find?_eq_some h1
        rw [Bool.not_eq_true'] at hw
        have hgt := (groupOk_iff w).mpr (hall w hwm).1
        rw [hgt] at hw
        exact Bool.noConfusion hw
    | none =>
      cases h2 : (o :: rest).find? (fun op => !opTimeOk op) with
      | some w =>
        simp only [h1, h2]
        constructor
        · intro hc
          exact Bool.noConfusion hc
        · rintro ⟨hne, hall⟩
          have hw := List.find?_some h2
          have hwm := List.mem_of_find?_eq_some h2
          rw [Bool.not_eq_true'] at hw
          have hgt := (timeOk_iff w).mpr (hall w hwm).2
          rw [hgt] at hw
          exact Bool.noConfusion hw
      | none =>
        simp only [h1, h2]
        constructor
        · intro _
          refine ⟨by simp, ?_⟩
          intro op hop
          rw [List.find?_eq_none] at h1 h2
          have ha := h1 op hop
          have hb := h2 op hop
          constructor
          · apply (groupOk_iff op).mp
            cases hg : opGroupOk validIds op
            · rw [hg] at ha
              exact absurd rfl ha
            · rfl
          · apply (timeOk_iff op).mp
            cases hg : opTimeOk op
            · rw [hg] at hb
              exact absurd rfl hb
            · rfl
        · intro _
          trivial

/-- C7 counterexample: a payload with two entries sharing operation id
`"X"`, each with a known group and positive duration, is accepted by
`validate_operations` — duplicate ids are not rejected. -/
theorem claim_C7_counterexample :
    (opsDataDup.map (fun o => o.id)) = ["X", "X"] ∧
    validateOperations opsDataDup ["G"] = (true, "") := by decide

/-! ### Claim C9 -/

/-- C9 counterexample: raising operation `O`'s `processing_time` from 9 to
10 (all other input unchanged) strictly decreases the makespan of the
optimal returned schedule from 19 to 12, because the larger duration flips
the priority-weighted optimum to a structure that happens to be shorter. -/
theorem claim_C9_counterexample :
    OptimalSolution (jobsMono 9) groupsMono assignMono9 ∧
    OptimalSolution (jobsMono 10) groupsMono assignMono10 ∧
    (decodeSchedule (jobsMono 10) groupsMono assignMono10).makespan <
      (decodeSchedule (jobsMono 9) groupsMono assignMono9).makespan :=
  ⟨assignMono9_opt, assignMono10_opt, by decide⟩

/-- Witness for the amended C9 at a concrete pair of optimal solutions. -/
theorem claim_C9_amended_witness :
    (1 ≤ 2) ∧ OptimalSolution jobsZeroDur groupsSix assignZeroDur ∧
    OptimalSolution (scaleJobs 2 jobsZeroDur) groupsSix (scaleAssign 2 assignZeroDur) ∧
    makespanVal jobsZeroDur groupsSix assignZeroDur ≤
      makespanVal (scaleJobs 2 jobsZeroDur) groupsSix (scaleAssign 2 assignZeroDur) := by
  have hB : OptimalSolution jobsZeroDur groupsSix assignZeroDur := by
    refine ⟨by decide, ?_⟩
    intro B hBf
    have h0 : objVal jobsZeroDur groupsSix assignZeroDur = 0 := by decide
    rw [h0]
    exact Nat.zero_le _
  have hA : OptimalSolution (scaleJobs 2 jobsZeroDur) groupsSix
      (scaleAssign 2 assignZeroDur) := by
    refine ⟨by decide, ?_⟩
    intro B hBf
    have h0 : objVal (scaleJobs 2 jobsZeroDur) groupsSix (scaleAssign 2 assignZeroDur) = 0 :=
      by decide
    rw [h0]
    exact Nat.zero_le _
  exact ⟨by omega, hB, hA,
    claim_C9_amended jobsZeroDur groupsSix 2 _ _ (by omega) hB hA⟩

end JSSP
